import Mathlib

/-!
Shallow embedding of the random-projection-forest ANN index of
`src/algos/ann.rs` together with the Top-K collector of
`src/algos/graph_ann.rs`.

Modelling conventions:
* `f32` values are modelled as `ℚ` (the claims under study are about
  comparisons and exact small-number arithmetic, not rounding).
* `NodeID` (`usize`) is `ℕ`; arena indices (`TreeIndex`) are `ℕ`.
* The `XorShiftRng` random generator is modelled as an infinite stream of
  naturals together with a cursor; `slice.choose(rng)` reads the next stream
  value modulo the slice length.
* Rust panics (`unwrap` on `None`, failed `assert!`, out-of-bounds indexing)
  are modelled as `Except.error Err.fatal`; the possibly non-terminating
  loops (`while idx_1 == idx_2 { .. }` and the unbounded traversal /
  recursion) carry a fuel argument and yield `Except.error Err.noFuel` when
  the fuel runs out.  A function diverges on an input exactly when it yields
  `Err.noFuel` for every fuel.
* `BinaryHeap` is a multiset with "pop the greatest element"; since two
  entries comparing `Equal` are identical values here, it is modelled as a
  list kept sorted by the comparison order, which is a deterministic
  refinement of the unspecified iteration order.
-/

abbrev NodeID := ℕ

abbrev TreeIndex := ℕ

/-- Errors of the embedding: a Rust panic (`fatal`) or fuel exhaustion
standing for non-termination (`noFuel`). -/
inductive Err where
  | fatal : Err
  | noFuel : Err
deriving DecidableEq, Repr

abbrev Res (α : Type) := Except Err α

/-- `fn dot(x: &[f32], y: &[f32]) -> f32` (ann.rs:14). -/
def dot (x y : List ℚ) : ℚ :=
  (List.zipWith (fun xi yi => xi * yi) x y).sum

/-- `struct Hyperplane { coef: Vec<f32>, bias: f32 }` (ann.rs:18). -/
structure Hyperplane where
  coef : List ℚ
  bias : ℚ
deriving DecidableEq, Repr

/-- `Hyperplane::distance` (ann.rs:32): `dot(&self.coef, emb) + self.bias`. -/
def Hyperplane.distance (hp : Hyperplane) (emb : List ℚ) : ℚ :=
  dot hp.coef emb + hp.bias

/-- `Hyperplane::point_is_above` (ann.rs:28): `self.distance(emb) >= 0.`. -/
def Hyperplane.point_is_above (hp : Hyperplane) (emb : List ℚ) : Bool :=
  decide (0 ≤ hp.distance emb)

/-- `enum Tree` (ann.rs:41): a `Leaf` of node ids or a `Split` with a
hyperplane and the arena indices of the above/below children.  (Named
`ATree` because `Tree` already exists in Mathlib.) -/
inductive ATree where
  | Leaf (indices : List NodeID) : ATree
  | Split (hp : Hyperplane) (above below : TreeIndex) : ATree
deriving DecidableEq, Repr

abbrev TreeTable := List ATree

/-- Modelled from the spec: the embedding store (`src/embeddings.rs` is not
among the sources).  §6 of the spec: `len()`, `get_embedding(NodeID)`, and a
pure distance metric `(Vector, Vector) → f32`. -/
structure EmbeddingStore where
  len : ℕ
  emb : NodeID → List ℚ
  dist : List ℚ → List ℚ → ℚ

/-- Modelled from the spec: `Entity` is either a stored NodeID or a raw
query vector (§6, `compute_distance(Entity, Entity)`). -/
inductive Entity where
  | Node (id : NodeID) : Entity
  | Embedding (e : List ℚ) : Entity

/-- Modelled from the spec: resolve an `Entity` to its vector. -/
def EmbeddingStore.resolve (es : EmbeddingStore) : Entity → List ℚ
  | Entity.Node id => es.emb id
  | Entity.Embedding e => e

/-- Modelled from the spec: `compute_distance(Entity, Entity) → f32`,
the store's pure distance metric applied to the resolved vectors. -/
def EmbeddingStore.compute_distance (es : EmbeddingStore) (a b : Entity) : ℚ :=
  es.dist (es.resolve a) (es.resolve b)

/-- The deterministic RNG (`XorShiftRng`), modelled as a stream of naturals
with a cursor. -/
structure Rng where
  stream : ℕ → ℕ
  pos : ℕ

def Rng.next (r : Rng) : ℕ × Rng :=
  (r.stream r.pos, ⟨r.stream, r.pos + 1⟩)

/-- `slice.choose(rng)`: `None` on an empty slice, otherwise a stream-chosen
element.  The `.unwrap()` at the call sites is a panic on `none`. -/
def chooseElem {α : Type} (slice : List α) (r : Rng) : Option (α × Rng) :=
  let (v, r') := r.next
  match slice[v % slice.length]? with
  | some a => some (a, r')
  | none => none

-- Lexicographic comparison of `(distance, id)`-style pairs.  `NodeDistance`
-- (graph_ann.rs:39) and `HpDistance` (ann.rs:61) implement `cmp` as
-- `FloatOrd(other.0).cmp(&FloatOrd(self.0)).then_with(|| other.1.cmp(&self.1))`,
-- i.e. the *reverse* of this order: a smaller `(Q, ℕ)` pair is the `Ord`-greater
-- value, so Rust's max-heaps pop the lexicographic minimum and Rust's
-- ascending sorts produce lexicographically descending sequences.
def ndLe (a b : ℚ × ℕ) : Prop :=
  a.1 < b.1 ∨ (a.1 = b.1 ∧ a.2 ≤ b.2)

def ndLt (a b : ℚ × ℕ) : Prop :=
  a.1 < b.1 ∨ (a.1 = b.1 ∧ a.2 < b.2)

def ndGe (a b : ℚ × ℕ) : Prop := ndLe b a

instance : DecidableRel ndLe := fun a b =>
  inferInstanceAs (Decidable (a.1 < b.1 ∨ (a.1 = b.1 ∧ a.2 ≤ b.2)))

instance : DecidableRel ndLt := fun a b =>
  inferInstanceAs (Decidable (a.1 < b.1 ∨ (a.1 = b.1 ∧ a.2 < b.2)))

instance : DecidableRel ndGe := fun a b =>
  inferInstanceAs (Decidable (ndLe b a))

instance : IsTotal (ℚ × ℕ) ndLe where
  total a b := by
    rcases lt_trichotomy a.1 b.1 with h | h | h
    · exact Or.inl (Or.inl h)
    · rcases Nat.le_total a.2 b.2 with h2 | h2
      · exact Or.inl (Or.inr ⟨h, h2⟩)
      · exact Or.inr (Or.inr ⟨h.symm, h2⟩)
    · exact Or.inr (Or.inl h)

instance : IsTrans (ℚ × ℕ) ndLe where
  trans a b c hab hbc := by
    rcases hab with h1 | ⟨h1, h1'⟩ <;> rcases hbc with h2 | ⟨h2, h2'⟩
    · exact Or.inl (h1.trans h2)
    · exact Or.inl (h2 ▸ h1)
    · exact Or.inl (h1 ▸ h2)
    · exact Or.inr ⟨h1.trans h2, h1'.trans h2'⟩

instance : IsAntisymm (ℚ × ℕ) ndLe where
  antisymm a b hab hba := by
    rcases hab with h1 | ⟨h1, h1'⟩ <;> rcases hba with h2 | ⟨h2, h2'⟩
    · exact absurd (h1.trans h2) (lt_irrefl _)
    · exact absurd h1 (h2 ▸ lt_irrefl _)
    · exact absurd h2 (h1 ▸ lt_irrefl _)
    · exact Prod.ext h1 (Nat.le_antisymm h1' h2')

instance : IsTotal (ℚ × ℕ) ndGe where
  total a b := (IsTotal.total (r := ndLe) b a).imp (fun h => h) (fun h => h)

instance : IsTrans (ℚ × ℕ) ndGe where
  trans a b c hab hbc := IsTrans.trans (r := ndLe) c b a hbc hab

instance : IsAntisymm (ℚ × ℕ) ndGe where
  antisymm a b hab hba := IsAntisymm.antisymm (r := ndLe) a b hba hab

theorem ndLe_total_not {a b : ℚ × ℕ} (h : ¬ ndLe a b) : ndLe b a :=
  (IsTotal.total (r := ndLe) a b).resolve_left h

theorem ndLt_of_ndLe_ne {a b : ℚ × ℕ} (h : ndLe a b) (hne : a ≠ b) : ndLt a b := by
  rcases h with h | ⟨h1, h2⟩
  · exact Or.inl h
  · refine Or.inr ⟨h1, lt_of_le_of_ne h2 ?_⟩
    intro hid
    exact hne (Prod.ext h1 hid)

theorem ndLe_of_ndLt {a b : ℚ × ℕ} (h : ndLt a b) : ndLe a b := by
  rcases h with h | ⟨h1, h2⟩
  · exact Or.inl h
  · exact Or.inr ⟨h1, Nat.le_of_lt h2⟩

theorem ndLt_irrefl (a : ℚ × ℕ) : ¬ ndLt a a := by
  rintro (h | ⟨_, h⟩)
  · exact lt_irrefl _ h
  · exact Nat.lt_irrefl _ h

/-- The `while idx_1 == idx_2 { idx_2 = indices.choose(rng).unwrap().0 }`
loop shared by `compute_w_vec_from_points` (ann.rs:404) and
`pseudo_kmeans_w_vec_from_points` (ann.rs:433): repeatedly draw until a
NodeID different from `idx1` appears.  Diverges (for every fuel) when the
slice holds no second distinct id. -/
def choose_second_distinct (fuel : ℕ) (idx1 : NodeID)
    (indices : List (NodeID × Bool)) (r : Rng) : Res (NodeID × Rng) :=
  match fuel with
  | 0 => Except.error Err.noFuel
  | fuel + 1 =>
    match chooseElem indices r with
    | none => Except.error Err.fatal
    | some (p, r') =>
      if p.1 = idx1 then choose_second_distinct fuel idx1 indices r'
      else Except.ok (p.1, r')

/-- `compute_w_vec_from_points` (ann.rs:396): pick two distinct points,
return `(pa - pb, pa, pb)` elementwise. -/
def compute_w_vec_from_points (fuel : ℕ) (indices : List (NodeID × Bool))
    (es : EmbeddingStore) (r : Rng) : Res (List ℚ × List ℚ × List ℚ × Rng) :=
  match chooseElem indices r with
  | none => Except.error Err.fatal
  | some (p1, r1) =>
    match choose_second_distinct fuel p1.1 indices r1 with
    | Except.error e => Except.error e
    | Except.ok (idx2, r2) =>
      let pa := es.emb p1.1
      let pb := es.emb idx2
      let delta := List.zipWith (fun pai pbi => pai - pbi) pa pb
      Except.ok (delta, pa, pb, r2)

/-- `update_point` (ann.rs:417): incremental centroid update with weight
`1/count`: `ci = r*ci + (1-r)*npi` where `r = (count-1)/count`. -/
def update_point (centroid new_point : List ℚ) (count : ℕ) : List ℚ :=
  List.zipWith
    (fun ci npi =>
      let r : ℚ := ((count - 1 : ℕ) : ℚ) / (count : ℚ)
      r * ci + (1 - r) * npi)
    centroid new_point

/-- The streaming-refinement loop of `pseudo_kmeans_w_vec_from_points`
(ann.rs:443-455), iterated `iters` times over state `(pa, pb, ac, bc, rng)`. -/
def pseudo_kmeans_loop (indices : List (NodeID × Bool)) (es : EmbeddingStore)
    (iters : ℕ) (pa pb : List ℚ) (ac bc : ℕ) (r : Rng) :
    Res (List ℚ × List ℚ × Rng) :=
  match iters with
  | 0 => Except.ok (pa, pb, r)
  | iters + 1 =>
    match chooseElem indices r with
    | none => Except.error Err.fatal
    | some (p, r') =>
      let e := es.emb p.1
      let da := (ac : ℚ) * es.dist pa e
      let db := (bc : ℚ) * es.dist pb e
      if db < da then
        pseudo_kmeans_loop indices es iters pa (update_point pb e (bc + 1)) ac (bc + 1) r'
      else
        pseudo_kmeans_loop indices es iters (update_point pa e (ac + 1)) pb (ac + 1) bc r'

/-- `pseudo_kmeans_w_vec_from_points` (ann.rs:424): seed two distinct
centroids, refine them by the streaming loop, return `(pa - pb, pa, pb)`. -/
def pseudo_kmeans_w_vec_from_points (fuel : ℕ) (indices : List (NodeID × Bool))
    (es : EmbeddingStore) (iterations : ℕ) (r : Rng) :
    Res (List ℚ × List ℚ × List ℚ × Rng) :=
  match chooseElem indices r with
  | none => Except.error Err.fatal
  | some (p1, r1) =>
    match choose_second_distinct fuel p1.1 indices r1 with
    | Except.error e => Except.error e
    | Except.ok (idx2, r2) =>
      let pa0 := es.emb p1.1
      let pb0 := es.emb idx2
      match pseudo_kmeans_loop indices es iterations pa0 pb0 1 1 r2 with
      | Except.error e => Except.error e
      | Except.ok (pa, pb, r3) =>
        let delta := List.zipWith (fun pai pbi => pai - pbi) pa pb
        Except.ok (delta, pa, pb, r3)

/-- The bias of the candidate hyperplane in `compute_simple_splits`
(ann.rs:479-481): `Σᵢ diffᵢ * (paᵢ + pbᵢ) / 2`. -/
def split_bias (diff pa pb : List ℚ) : ℚ :=
  (List.zipWith (fun d pab => d * (pab.1 + pab.2) / 2) diff (List.zip pa pb)).sum

/-- The scoring loop of `compute_simple_splits` (ann.rs:486-490): sample `n`
node ids and count how many fall above `hp`. -/
def count_above (n : ℕ) (hp : Hyperplane) (indices : List (NodeID × Bool))
    (es : EmbeddingStore) (s : ℕ) (r : Rng) : Res (ℕ × Rng) :=
  match n with
  | 0 => Except.ok (s, r)
  | n + 1 =>
    match chooseElem indices r with
    | none => Except.error Err.fatal
    | some (p, r') =>
      if hp.point_is_above (es.emb p.1) then count_above n hp indices es (s + 1) r'
      else count_above n hp indices es s r'

/-- The best-of-N loop of `compute_simple_splits` (ann.rs:473-497) over the
remaining number of candidate hyperplanes, carrying `best : (score, Option)`. -/
def simple_splits_loop (fuel : ℕ) (indices : List (NodeID × Bool))
    (es : EmbeddingStore) (trials n num_sampled : ℕ)
    (best : ℕ × Option Hyperplane) (r : Rng) : Res (ℕ × Option Hyperplane × Rng) :=
  match trials with
  | 0 => Except.ok (best.1, best.2, r)
  | trials + 1 =>
    match pseudo_kmeans_w_vec_from_points fuel indices es num_sampled r with
    | Except.error e => Except.error e
    | Except.ok (diff, pa, pb, r1) =>
      let bias := split_bias diff pa pb
      let hp : Hyperplane := ⟨diff, bias⟩
      match count_above n hp indices es 0 r1 with
      | Except.error e => Except.error e
      | Except.ok (s, r2) =>
        let delta := n - s
        let score := max s delta - min s delta
        let best' := if score < best.1 ∨ best.2 = none then (score, some hp) else best
        simple_splits_loop fuel indices es trials n num_sampled best' r2

/-- `compute_simple_splits` (ann.rs:462): try `test_hp_per_split` pseudo-
k-means candidate hyperplanes, keep the one with the best balance score;
`best.1.unwrap()` panics if no candidate was produced. -/
def compute_simple_splits (fuel : ℕ) (indices : List (NodeID × Bool))
    (es : EmbeddingStore) (test_hp_per_split num_sampled_nodes_split_test : ℕ)
    (r : Rng) : Res (Hyperplane × Rng) :=
  let n := min num_sampled_nodes_split_test indices.length
  match simple_splits_loop fuel indices es test_hp_per_split n
      num_sampled_nodes_split_test (0, none) r with
  | Except.error e => Except.error e
  | Except.ok (_, none, _) => Except.error Err.fatal
  | Except.ok (_, some hp, r') => Except.ok (hp, r')

/-- `median` (ann.rs:501): `assert!(deltas.len() > 0)` then the middle
element (odd length) or the mean of the two middle elements (even). -/
def median (deltas : List ℚ) : Res ℚ :=
  if deltas.length = 0 then Except.error Err.fatal
  else
    let half := deltas.length / 2
    if deltas.length % 2 = 1 then Except.ok (deltas.getD half 0)
    else Except.ok ((deltas.getD (half - 1) 0 + deltas.getD half 0) / 2)

/-- The projection-sampling loop of `compute_normal_rp` (ann.rs:523-527):
draw `n` ids and record `dot(emb, random_vec)` for each. -/
def sample_projections (n : ℕ) (indices : List (NodeID × Bool))
    (es : EmbeddingStore) (vec : List ℚ) (r : Rng) : Res (List ℚ × Rng) :=
  match n with
  | 0 => Except.ok ([], r)
  | n + 1 =>
    match chooseElem indices r with
    | none => Except.error Err.fatal
    | some (p, r') =>
      let rp := dot (es.emb p.1) vec
      match sample_projections n indices es vec r' with
      | Except.error e => Except.error e
      | Except.ok (rest, r'') => Except.ok (rp :: rest, r'')

/-- `compute_normal_rp` (ann.rs:512): point-difference direction, sampled
projections sorted ascending, `bias = -median`. -/
def compute_normal_rp (fuel : ℕ) (indices : List (NodeID × Bool))
    (es : EmbeddingStore) (num_sampled_nodes_split_test : ℕ) (r : Rng) :
    Res (Hyperplane × Rng) :=
  match compute_w_vec_from_points fuel indices es r with
  | Except.error e => Except.error e
  | Except.ok (random_vec, _, _, r1) =>
    let n := min num_sampled_nodes_split_test indices.length
    match sample_projections n indices es random_vec r1 with
    | Except.error e => Except.error e
    | Except.ok (rps, r2) =>
      let sorted := List.insertionSort (fun a b : ℚ => a ≤ b) rps
      match median sorted with
      | Except.error e => Except.error e
      | Except.ok m => Except.ok (⟨random_vec, -m⟩, r2)

/-- The swap `(vec[cur_ptr], vec[low]) = (vec[low], vec[cur_ptr])` of
`sort_binary` (ann.rs:387). -/
def list_swap {α : Type} [Inhabited α] (l : List α) (i j : ℕ) : List α :=
  (l.set i (l.getD j default)).set j (l.getD i default)

instance : Inhabited (NodeID × Bool) := ⟨(0, false)⟩

/-- The scan of `sort_binary` (ann.rs:383): move the `false`-flagged pairs
to the front in place. -/
def sort_binary_go (vec : List (NodeID × Bool)) (low cur : ℕ) :
    List (NodeID × Bool) :=
  if h : cur < vec.length then
    if (vec.getD cur default).2 = false then
      sort_binary_go (list_swap vec cur low) (low + 1) (cur + 1)
    else
      sort_binary_go vec low (cur + 1)
  else vec
termination_by vec.length - cur
decreasing_by
  · simp only [list_swap, List.length_set]
    omega
  · omega

/-- `sort_binary` (ann.rs:383). -/
def sort_binary (vec : List (NodeID × Bool)) : List (NodeID × Bool) :=
  sort_binary_go vec 0 0

/-- `struct AnnBuildConfig` (ann.rs:199). -/
structure AnnBuildConfig where
  max_nodes_per_leaf : ℕ
  test_hp_per_split : ℕ
  num_sampled_nodes_split_test : ℕ
deriving DecidableEq, Repr

/-- The in-place labelling pass of `fit_group_` (ann.rs:291-294): set each
pair's side flag to `hp.point_is_above(embedding)`. -/
def labeled_slice (es : EmbeddingStore) (hp : Hyperplane)
    (indices : List (NodeID × Bool)) : List (NodeID × Bool) :=
  indices.map (fun v => (v.1, hp.point_is_above (es.emb v.1)))

/-- `split_idx` of `fit_group_` (ann.rs:291-294): the number of pairs whose
flag is `false` (the "below" count, summed as `if v.1 { 0 } else { 1 }`). -/
def split_index (labeled : List (NodeID × Bool)) : ℕ :=
  (labeled.filter (fun v => v.2 = false)).length

/-- The "below" half after labelling and `sort_binary`
(`indices.split_at_mut(split_idx).0`, ann.rs:299). -/
def below_slice (es : EmbeddingStore) (hp : Hyperplane)
    (indices : List (NodeID × Bool)) : List (NodeID × Bool) :=
  (sort_binary (labeled_slice es hp indices)).take
    (split_index (labeled_slice es hp indices))

/-- The "above" half after labelling and `sort_binary`
(`indices.split_at_mut(split_idx).1`, ann.rs:299). -/
def above_slice (es : EmbeddingStore) (hp : Hyperplane)
    (indices : List (NodeID × Bool)) : List (NodeID × Bool) :=
  (sort_binary (labeled_slice es hp indices)).drop
    (split_index (labeled_slice es hp indices))

/-- `Ann::fit_group_` (ann.rs:259): the recursive tree builder.  The fuel
bounds both the recursion depth and the inner choose-distinct loops; the
Rust recursion is bounded by the slice length, which the termination
theorems below make precise. -/
def fit_group_ (fuel : ℕ) (config : AnnBuildConfig) (tree_table : TreeTable)
    (depth : ℕ) (es : EmbeddingStore) (indices : List (NodeID × Bool))
    (r : Rng) : Res (TreeTable × TreeIndex × Rng) :=
  match fuel with
  | 0 => Except.error Err.noFuel
  | fuel + 1 =>
    if indices.length < config.max_nodes_per_leaf then
      Except.ok (tree_table ++ [ATree.Leaf (indices.map (fun v => v.1))],
        (tree_table ++ [ATree.Leaf (indices.map (fun v => v.1))]).length - 1, r)
    else
      match (if 0 < config.test_hp_per_split then
          compute_simple_splits fuel indices es config.test_hp_per_split
            config.num_sampled_nodes_split_test r
        else
          compute_normal_rp fuel indices es
            config.num_sampled_nodes_split_test r) with
      | Except.error e => Except.error e
      | Except.ok (hp, r1) =>
        if 0 < (above_slice es hp indices).length ∧
            0 < (below_slice es hp indices).length then
          match fit_group_ fuel config tree_table (depth + 1) es
              (above_slice es hp indices) r1 with
          | Except.error e => Except.error e
          | Except.ok (t1, above_idx, r2) =>
            match fit_group_ fuel config t1 (depth + 1) es
                (below_slice es hp indices) r2 with
            | Except.error e => Except.error e
            | Except.ok (t2, below_idx, r3) =>
              Except.ok (t2 ++ [ATree.Split hp above_idx below_idx],
                (t2 ++ [ATree.Split hp above_idx below_idx]).length - 1, r3)
        else
          Except.ok (tree_table ++ [ATree.Leaf
              ((sort_binary (labeled_slice es hp indices)).map (fun v => v.1))],
            (tree_table ++ [ATree.Leaf
              ((sort_binary (labeled_slice es hp indices)).map
                (fun v => v.1))]).length - 1, r1)

/-- `struct TopK` (graph_ann.rs:63): a `BinaryHeap<Reverse<NodeDistance>>`
bounded by `k`.  Entries are `(distance, id)` pairs; because `NodeDistance`'s
`Ord` is the reverse lexicographic order, `Reverse` restores the plain
lexicographic order and the heap evicts the lexicographically greatest pair.
The multiset is represented as a list sorted ascending by `ndLe`. -/
structure TopK where
  k : ℕ
  entries : List (ℚ × NodeID)
deriving DecidableEq, Repr

/-- `TopK::new` (graph_ann.rs:69). -/
def TopK.new (k : ℕ) : TopK := ⟨k, []⟩

/-- `TopK::push_nd` (graph_ann.rs:80): push, then pop the greatest
`(distance, id)` pair if the heap exceeds `k`. -/
def TopK.push_nd (t : TopK) (nd : ℚ × NodeID) : TopK :=
  let l := t.entries.orderedInsert ndLe nd
  if t.k < l.length then ⟨t.k, l.dropLast⟩ else ⟨t.k, l⟩

/-- `TopK::push` (graph_ann.rs:76). -/
def TopK.push (t : TopK) (node_id : NodeID) (score : ℚ) : TopK :=
  t.push_nd (score, node_id)

/-- `TopK::into_sorted` (graph_ann.rs:87): drain ascending by distance.
The Rust sort is by distance only and is stable with respect to the
unspecified heap iteration order; the model returns the `(distance, id)`
ascending refinement. -/
def TopK.into_sorted (t : TopK) : List (ℚ × NodeID) :=
  t.entries

/-- `TopK::len` (graph_ann.rs:100). -/
def TopK.len (t : TopK) : ℕ := t.entries.length

/-- The scoring of one leaf in `tree_predict` (ann.rs:108-126): compute the
distance of every leaf id to the query and push it into the collector. -/
def score_leaf (es : EmbeddingStore) (emb : List ℚ) (ids : List NodeID)
    (ret : TopK) : TopK :=
  ids.foldl
    (fun s id =>
      s.push id (es.compute_distance (Entity.Node id) (Entity.Embedding emb)))
    ret

/-- The traversal loop of `tree_predict` (ann.rs:106-137).  The heap of
`HpDistance(score, tree_idx)` entries is a list sorted ascending by `ndLe`;
`heap.pop()` takes its head (the Rust max-heap pops the `Ord`-greatest
entry, which under the reversed `HpDistance` order is the lexicographically
least `(score, tree_idx)`). -/
def tree_predict_go (fuel : ℕ) (tree_table : TreeTable) (es : EmbeddingStore)
    (emb : List ℚ) (min_search_nodes : ℕ) (heap : List (ℚ × ℕ)) (ret : TopK)
    (visited : ℕ) : Res TopK :=
  match fuel with
  | 0 => Except.error Err.noFuel
  | fuel + 1 =>
    match heap with
    | [] => Except.ok ret
    | (_, tree_idx) :: heap' =>
      match tree_table[tree_idx]? with
      | none => Except.error Err.fatal
      | some (ATree.Leaf indices) =>
        let ret' := score_leaf es emb indices ret
        let visited' := visited + indices.length
        if min_search_nodes ≤ visited' then Except.ok ret'
        else tree_predict_go fuel tree_table es emb min_search_nodes heap' ret' visited'
      | some (ATree.Split hp above below) =>
        let d := hp.distance emb
        let above_dist := if 0 ≤ d then 0 else |d|
        let below_dist := if d < 0 then 0 else |d|
        let heap'' := (heap'.orderedInsert ndLe (above_dist, above)).orderedInsert
          ndLe (below_dist, below)
        if min_search_nodes ≤ visited then Except.ok ret
        else tree_predict_go fuel tree_table es emb min_search_nodes heap'' ret visited

/-- `tree_predict` (ann.rs:83): start from the root (last table entry),
traverse, and return the collector's sorted contents as `(id, distance)`
pairs.  `tree_table.len() - 1` on an empty table is an out-of-bounds panic. -/
def tree_predict (fuel : ℕ) (tree_table : TreeTable) (es : EmbeddingStore)
    (emb : List ℚ) (k min_search_nodes : ℕ) : Res (List (NodeID × ℚ)) :=
  let min_search := max min_search_nodes k
  if tree_table.length = 0 then Except.error Err.fatal
  else
    match tree_predict_go fuel tree_table es emb min_search
        [(0, tree_table.length - 1)] (TopK.new k) 0 with
    | Except.error e => Except.error e
    | Except.ok ret => Except.ok (ret.into_sorted.map (fun nd => (nd.2, nd.1)))

/-- The descent loop of `tree_leaf_path` (ann.rs:170-179).  Each step moves
to the chosen child and then records it (`path.push(node)` runs after the
update), so the returned path excludes the root and ends with the Leaf. -/
def tree_leaf_path_go (fuel : ℕ) (tree_table : TreeTable) (emb : List ℚ)
    (node : ℕ) : Res (List ℕ) :=
  match fuel with
  | 0 => Except.error Err.noFuel
  | fuel + 1 =>
    match tree_table[node]? with
    | none => Except.error Err.fatal
    | some (ATree.Leaf _) => Except.ok []
    | some (ATree.Split hp above below) =>
      let node' := if hp.point_is_above emb then above else below
      match tree_leaf_path_go fuel tree_table emb node' with
      | Except.error e => Except.error e
      | Except.ok path => Except.ok (node' :: path)

/-- `tree_leaf_path` (ann.rs:164). -/
def tree_leaf_path (fuel : ℕ) (tree_table : TreeTable) (emb : List ℚ) :
    Res (List ℕ) :=
  if tree_table.length = 0 then Except.error Err.fatal
  else tree_leaf_path_go fuel tree_table emb (tree_table.length - 1)

/-- The spec's root-to-leaf descent (§4.6.2/§4.6.3), recording **every**
node index visited, the root and the final Leaf included.  The claim's
"internal (Split) node indices visited, excluding the final Leaf" is
`(descent_trace ..).dropLast`; the code's `tree_leaf_path` will be related
to `(descent_trace ..).drop 1`. -/
def descent_trace (fuel : ℕ) (tree_table : TreeTable) (emb : List ℚ)
    (node : ℕ) : Res (List ℕ) :=
  match fuel with
  | 0 => Except.error Err.noFuel
  | fuel + 1 =>
    match tree_table[node]? with
    | none => Except.error Err.fatal
    | some (ATree.Leaf _) => Except.ok [node]
    | some (ATree.Split hp above below) =>
      let node' := if hp.point_is_above emb then above else below
      match descent_trace fuel tree_table emb node' with
      | Except.error e => Except.error e
      | Except.ok path => Except.ok (node :: path)

/-- `struct Ann` (ann.rs:209). -/
structure Ann where
  trees : List TreeTable
deriving DecidableEq, Repr

/-- `Ann::new` (ann.rs:214). -/
def Ann.new : Ann := ⟨[]⟩

/-- The configuration assembled in `Ann::fit` (ann.rs:228-232), with the
defaults `test_hp_per_split = 5` and `num_sampled_nodes_split_test = 30`. -/
def fit_config (max_nodes_per_leaf : ℕ) (test_hp_per_split : Option ℕ)
    (num_sampled_nodes_split_test : Option ℕ) : AnnBuildConfig :=
  ⟨max_nodes_per_leaf, test_hp_per_split.getD 5,
    num_sampled_nodes_split_test.getD 30⟩

/-- The per-tree working set of `Ann::fit` (ann.rs:242-246): the given node
ids, or `0..es.len()`, each paired with the side flag `false`. -/
def base_indices (es : EmbeddingStore) (node_ids : Option (List NodeID)) :
    List (NodeID × Bool) :=
  match node_ids with
  | some nids => nids.map (fun idx => (idx, false))
  | none => (List.range es.len).map (fun idx => (idx, false))

/-- Sequencing of independent `Res` computations (the data-parallel
`par_iter` loops of build and predict, which share no mutable state). -/
def mapRes {α β : Type} (f : α → Res β) : List α → Res (List β)
  | [] => Except.ok []
  | x :: xs =>
    match f x with
    | Except.error e => Except.error e
    | Except.ok y =>
      match mapRes f xs with
      | Except.error e => Except.error e
      | Except.ok ys => Except.ok (y :: ys)

/-- One tree of `Ann::fit` (ann.rs:241-248): tree `idx` starts from an empty
arena and an RNG seeded with `seed + idx`. -/
def fit_one_tree (prng : ℕ → ℕ → ℕ) (config : AnnBuildConfig)
    (es : EmbeddingStore) (base : List (NodeID × Bool)) (seed idx fuel : ℕ) :
    Res TreeTable :=
  match fit_group_ fuel config [] 1 es base ⟨prng (seed + idx), 0⟩ with
  | Except.error e => Except.error e
  | Except.ok (tree, _, _) => Except.ok tree

/-- `Ann::fit` (ann.rs:218).  `prng` maps a seed to the XorShift stream for
that seed; each tree is seeded with `seed + idx`. -/
def Ann.fit (prng : ℕ → ℕ → ℕ) (es : EmbeddingStore) (n_trees : ℕ)
    (max_nodes_per_leaf : ℕ) (test_hp_per_split : Option ℕ)
    (num_sampled_nodes_split_test : Option ℕ) (node_ids : Option (List NodeID))
    (seed : ℕ) (fuel : ℕ) : Res Ann :=
  let config := fit_config max_nodes_per_leaf test_hp_per_split
    num_sampled_nodes_split_test
  let base := base_indices es node_ids
  match mapRes (fun idx => fit_one_tree prng config es base seed idx fuel)
      (List.range n_trees) with
  | Except.error e => Except.error e
  | Except.ok trees => Except.ok ⟨trees⟩

/-- The ascending-by-`(distance, id)` sort.  `all_scores.par_sort()`
(ann.rs:339) sorts by `NodeDistance`'s reversed `Ord`, which yields the
*descending* `(distance, id)` sequence, i.e. `sort_desc`. -/
def sort_asc (l : List (ℚ × ℕ)) : List (ℚ × ℕ) :=
  List.insertionSort ndLe l

def sort_desc (l : List (ℚ × ℕ)) : List (ℚ × ℕ) :=
  List.insertionSort ndGe l

/-- The deduplication scan of `Ann::predict` (ann.rs:342-351): keep the
head of every maximal run of adjacent equal node ids (`cur` is the id of
the last kept entry). -/
def dedup_adjacent_go (cur : ℕ) : List (ℚ × ℕ) → List (ℚ × ℕ)
  | [] => []
  | y :: ys =>
    if y.2 = cur then dedup_adjacent_go cur ys
    else y :: dedup_adjacent_go y.2 ys

/-- The gathering phase of `Ann::predict` (ann.rs:324-336): per-tree
`tree_predict` results flattened into `NodeDistance = (distance, id)`
candidates. -/
def Ann.all_candidates (fuel : ℕ) (ann : Ann) (es : EmbeddingStore)
    (emb : List ℚ) (k : ℕ) (min_search_nodes : Option ℕ) :
    Res (List (ℚ × ℕ)) :=
  let min_search := min_search_nodes.getD (ann.trees.length * k)
  match mapRes (fun tree => tree_predict fuel tree es emb k min_search)
      ann.trees with
  | Except.error e => Except.error e
  | Except.ok scores =>
    Except.ok ((scores.flatten).map (fun p => (p.2, p.1)))

/-- `Ann::predict` (ann.rs:315): gather, sort (descending, by the reversed
`Ord`), deduplicate adjacent ids, reverse, truncate to `k`.  Reading
`all_scores[0]` of an empty candidate vector (ann.rs:343) is a panic. -/
def Ann.predict (fuel : ℕ) (ann : Ann) (es : EmbeddingStore) (emb : List ℚ)
    (k : ℕ) (min_search_nodes : Option ℕ) : Res (List (ℚ × ℕ)) :=
  match Ann.all_candidates fuel ann es emb k min_search_nodes with
  | Except.error e => Except.error e
  | Except.ok all_scores =>
    match sort_desc all_scores with
    | [] => Except.error Err.fatal
    | x :: rest =>
      let deduped := x :: dedup_adjacent_go x.2 rest
      Except.ok ((deduped.reverse).take k)

/-- `Ann::predict_leaf_paths` (ann.rs:368). -/
def Ann.predict_leaf_paths (fuel : ℕ) (ann : Ann) (emb : List ℚ) :
    Res (List (List ℕ)) :=
  mapRes (fun tree => tree_leaf_path fuel tree emb) ann.trees

/-- `Ann::num_trees` (ann.rs:377). -/
def Ann.num_trees (ann : Ann) : ℕ := ann.trees.length

/-- From claim C1's words: deduplicate by `NodeID`, keeping for every id the
smallest distance it occurs with. -/
def dedup_by_id_keep_min (cands : List (ℚ × ℕ)) : List (ℚ × ℕ) :=
  ((cands.map Prod.snd).dedup).map
    (fun id => ((((cands.filter (fun c => c.2 = id)).map Prod.fst).min?).getD 0, id))

/-- From claim C1's words: the `k` smallest fused `(distance, id)` candidates
in ascending order (ties ascending by id), after deduplication by `NodeID`
keeping the smallest-distance occurrence. -/
def spec_fused_top_k (cands : List (ℚ × ℕ)) (k : ℕ) : List (ℚ × ℕ) :=
  (sort_asc (dedup_by_id_keep_min cands)).take k

/-- Termination of the builder, in the fuel model: some fuel avoids
`Err.noFuel`.  (`Err.fatal` is a panic, which *is* a terminating outcome.) -/
def fit_terminates (prng : ℕ → ℕ → ℕ) (es : EmbeddingStore)
    (n_trees max_nodes_per_leaf : ℕ) (test_hp num_sampled : Option ℕ)
    (node_ids : Option (List NodeID)) (seed : ℕ) : Prop :=
  ∃ fuel,
    Ann.fit prng es n_trees max_nodes_per_leaf test_hp num_sampled node_ids
      seed fuel ≠ Except.error Err.noFuel

/-- A fair random stream: from every position it eventually hits every
residue class of every modulus.  The concrete `XorShiftRng` streams have
this property; it is what the termination of the two-distinct-points
selection loop needs. -/
def fair_stream (g : ℕ → ℕ) : Prop :=
  ∀ pos m j : ℕ, j < m → ∃ p, pos ≤ p ∧ g p % m = j

/-- The multiset of NodeIDs stored in the leaves of one arena node. -/
def ATree.node_leaf_ids : ATree → Multiset ℕ
  | ATree.Leaf l => (l : Multiset ℕ)
  | ATree.Split _ _ _ => 0

/-- The multiset of NodeIDs across all the leaves of an arena. -/
def leaf_ids (tt : TreeTable) : Multiset ℕ :=
  (tt.map ATree.node_leaf_ids).sum

-- Shared concrete instances used by witnesses and counterexamples.

/-- A tiny concrete store: two one-dimensional embeddings `[0]` and `[1]`
with squared-difference distance. -/
def esA : EmbeddingStore :=
  ⟨2, fun i => [(i : ℚ)],
    fun x y => (x.headD 0 - y.headD 0) * (x.headD 0 - y.headD 0)⟩

/-- The identity stream family standing for the seeded PRNG. -/
def prngId : ℕ → ℕ → ℕ := fun _ p => p

/-- A concrete valid arena: `Leaf [0]`, `Leaf [1]`, root split at `x = 1/2`. -/
def ttA : TreeTable :=
  [ATree.Leaf [0], ATree.Leaf [1], ATree.Split ⟨[1], -(1/2)⟩ 1 0]

-- ------------------------------------------------------------------
-- General lemmas
-- ------------------------------------------------------------------

theorem dot_sub_mid_eq_split_bias (pa pb : List ℚ) :
    dot (List.zipWith (fun pai pbi => pai - pbi) pa pb)
      (List.zipWith (fun x y => (x + y) / 2) pa pb) =
    split_bias (List.zipWith (fun pai pbi => pai - pbi) pa pb) pa pb := by
  induction pa generalizing pb with
  | nil => cases pb <;> simp [dot, split_bias]
  | cons a as ih =>
    cases pb with
    | nil => simp [dot, split_bias]
    | cons b bs =>
      have h := ih bs
      simp only [dot, split_bias, List.zipWith_cons_cons, List.zip_cons_cons,
        List.sum_cons] at h ⊢
      rw [h]
      ring_nf

/-- The hyperplane that `compute_simple_splits` builds from refined
centroids `pa`, `pb` has signed distance `2 * bias` at the midpoint
`(pa + pb) / 2` — not `0`. -/
theorem split_hyperplane_midpoint_distance (pa pb : List ℚ) :
    Hyperplane.distance
      ⟨List.zipWith (fun pai pbi => pai - pbi) pa pb,
        split_bias (List.zipWith (fun pai pbi => pai - pbi) pa pb) pa pb⟩
      (List.zipWith (fun x y => (x + y) / 2) pa pb) =
    2 * split_bias (List.zipWith (fun pai pbi => pai - pbi) pa pb) pa pb := by
  simp only [Hyperplane.distance, dot_sub_mid_eq_split_bias]
  ring

theorem descent_trace_head (fuel : ℕ) (tt : TreeTable) (emb : List ℚ)
    (node : ℕ) (l : List ℕ) (h : descent_trace fuel tt emb node = Except.ok l) :
    ∃ t, l = node :: t := by
  cases fuel with
  | zero => simp [descent_trace] at h
  | succ fuel =>
    rw [descent_trace] at h
    match htt : tt[node]? with
    | none => rw [htt] at h; simp at h
    | some (ATree.Leaf ids) =>
      rw [htt] at h
      simp only [Except.ok.injEq] at h
      exact ⟨[], h.symm⟩
    | some (ATree.Split hp a b) =>
      rw [htt] at h
      simp only at h
      match hrec : descent_trace fuel tt emb (if hp.point_is_above emb then a else b) with
      | Except.error e => rw [hrec] at h; simp at h
      | Except.ok path =>
        rw [hrec] at h
        simp only [Except.ok.injEq] at h
        exact ⟨path, h.symm⟩

theorem tree_leaf_path_go_eq_trace (fuel : ℕ) (tt : TreeTable) (emb : List ℚ)
    (node : ℕ) :
    tree_leaf_path_go fuel tt emb node =
      Except.map (fun l => l.drop 1) (descent_trace fuel tt emb node) := by
  induction fuel generalizing node with
  | zero => rfl
  | succ fuel ih =>
    rw [tree_leaf_path_go, descent_trace]
    match htt : tt[node]? with
    | none => rfl
    | some (ATree.Leaf ids) => rfl
    | some (ATree.Split hp a b) =>
      simp only
      match hrec : descent_trace fuel tt emb (if hp.point_is_above emb then a else b) with
      | Except.error e =>
        rw [ih, hrec]
        rfl
      | Except.ok path =>
        rw [ih, hrec]
        obtain ⟨t, rfl⟩ := descent_trace_head fuel tt emb _ path hrec
        rfl

-- ------------------------------------------------------------------
-- C3
-- ------------------------------------------------------------------

/-- C3: the claim says the hyperplane with `coef = A - B` and
`bias = Σ coefᵢ (Aᵢ+Bᵢ)/2` evaluated as `dot(coef, p) + bias` gives the
midpoint `(A+B)/2` signed distance `0`.  On the code's own formula the
midpoint of `A = [3]`, `B = [1]` (namely `[2]`) has signed distance `8`,
not `0`: the bias is built with the wrong sign (`compute_normal_rp` uses
`-median`, `compute_simple_splits` forgets the negation). -/
theorem C3_midpoint_distance_nonzero :
    Hyperplane.distance
      ⟨List.zipWith (fun pai pbi => pai - pbi) [(3 : ℚ)] [(1 : ℚ)],
        split_bias (List.zipWith (fun pai pbi => pai - pbi) [(3 : ℚ)] [(1 : ℚ)])
          [3] [1]⟩ [2] = 8 ∧ (8 : ℚ) ≠ 0 := by
  constructor
  · norm_num [Hyperplane.distance, dot, split_bias]
  · norm_num

-- ------------------------------------------------------------------
-- C5
-- ------------------------------------------------------------------

/-- C5 counterexample: on the arena `[Leaf [0], Leaf [1], Split ⟨[1],-1/2⟩ 1 0]`
and query `[1]`, the descent visits the root split `2` and ends in leaf `1`.
The claim predicts the internal-node path `[2]`; `tree_leaf_path` returns
`[1]` — the final Leaf's index, with the root excluded. -/
theorem C5_counterexample :
    tree_leaf_path 20 ttA [1] = Except.ok [1] ∧
    Except.map List.dropLast (descent_trace 20 ttA [1] 2) = Except.ok [2] ∧
    ([1] : List ℕ) ≠ [2] := by
  refine ⟨?_, ?_, by decide⟩
  · norm_num [tree_leaf_path, tree_leaf_path_go, descent_trace, ttA,
      Hyperplane.point_is_above, Hyperplane.distance, dot, decide_eq_true_eq]
  · norm_num [descent_trace, ttA, Hyperplane.point_is_above,
      Hyperplane.distance, dot, decide_eq_true_eq, Except.map]

/-- C5 amended: `tree_leaf_path` records each node *after* stepping to it,
so it returns the root-to-leaf descent trace without the root and with the
final Leaf's index included (and panics on an empty arena). -/
theorem C5_path_drops_root_keeps_leaf :
    ∀ (fuel : ℕ) (tt : TreeTable) (emb : List ℚ),
      tree_leaf_path fuel tt emb =
        if tt.length = 0 then Except.error Err.fatal
        else Except.map (fun l => l.drop 1)
          (descent_trace fuel tt emb (tt.length - 1)) := by
  intro fuel tt emb
  rw [tree_leaf_path]
  by_cases h : tt.length = 0
  · simp [h]
  · simp only [h, if_false]
    exact tree_leaf_path_go_eq_trace fuel tt emb (tt.length - 1)

-- ------------------------------------------------------------------
-- C4 counterexample
-- ------------------------------------------------------------------

/-- C4 counterexample: a full capacity-1 collector holding `(1, 5)` receives
a push of `(1, 3)` — equal distance, not strictly smaller.  The claim says
the earlier entry `(1, 5)` is kept and the new push discarded; the code
evicts the lexicographically greatest `(distance, id)` pair, keeping the
*new* entry `(1, 3)`. -/
theorem C4_counterexample :
    (((TopK.new 1).push 5 1).push 3 1).entries = [((1 : ℚ), 3)] ∧
    ((1 : ℚ), 5) ∉ (((TopK.new 1).push 5 1).push 3 1).entries := by
  have h : (((TopK.new 1).push 5 1).push 3 1).entries = [((1 : ℚ), 3)] := by
    norm_num [TopK.new, TopK.push, TopK.push_nd, List.orderedInsert, ndLe]
  refine ⟨h, ?_⟩
  rw [h]
  norm_num

-- ------------------------------------------------------------------
-- Ordering lemmas for the TopK collector
-- ------------------------------------------------------------------

theorem ndLe_refl (a : ℚ × ℕ) : ndLe a a := Or.inr ⟨rfl, le_refl _⟩

theorem ndLe_getLastD_mem {l : List (ℚ × ℕ)} (h : l ≠ []) (d : ℚ × ℕ) :
    l.getLastD d ∈ l := by
  induction l generalizing d with
  | nil => exact absurd rfl h
  | cons x t ih =>
    rw [List.getLastD_cons]
    cases t with
    | nil => simp [List.getLastD]
    | cons y t' => exact List.mem_cons_of_mem x (ih (by simp) x)

theorem sorted_ndLe_getLastD {l : List (ℚ × ℕ)} (hs : l.Sorted ndLe)
    {b : ℚ × ℕ} (hb : b ∈ l) (d : ℚ × ℕ) : ndLe b (l.getLastD d) := by
  induction l generalizing d with
  | nil => cases hb
  | cons x t ih =>
    rw [List.getLastD_cons]
    rcases List.mem_cons.mp hb with rfl | hb'
    · cases t with
      | nil => exact ndLe_refl b
      | cons y t' =>
        exact (List.sorted_cons.mp hs).1 _ (ndLe_getLastD_mem (by simp) b)
    · cases t with
      | nil => cases hb'
      | cons y t' => exact ih (List.sorted_cons.mp hs).2 hb' x

theorem ndLe_of_mem_dropWhile {a : ℚ × ℕ} {l : List (ℚ × ℕ)}
    (hs : l.Sorted ndLe) {b : ℚ × ℕ}
    (hb : b ∈ l.dropWhile (fun c => decide ¬ ndLe a c)) : ndLe a b := by
  induction l with
  | nil => cases hb
  | cons x t ih =>
    rw [List.dropWhile_cons] at hb
    by_cases hx : ndLe a x
    · rw [decide_eq_false (not_not_intro hx)] at hb
      simp only [Bool.false_eq_true, if_false] at hb
      rcases List.mem_cons.mp hb with rfl | hb'
      · exact hx
      · exact IsTrans.trans (r := ndLe) _ _ _ hx ((List.sorted_cons.mp hs).1 _ hb')
    · rw [decide_eq_true hx] at hb
      simp only [if_true] at hb
      exact ih (List.sorted_cons.mp hs).2 hb

/-- If the pushed pair is not lexicographically smaller than the stored
maximum, inserting it and then dropping the greatest entry is a no-op. -/
theorem orderedInsert_dropLast_of_not_lt (a : ℚ × ℕ) (l : List (ℚ × ℕ))
    (hs : l.Sorted ndLe)
    (hge : ¬ ndLt a (l.getLastD (0, 0))) :
    (l.orderedInsert ndLe a).dropLast = l := by
  have hlast_le : ndLe (l.getLastD (0, 0)) a := by
    by_contra hcon
    exact hge (ndLt_of_ndLe_ne (ndLe_total_not hcon)
      (fun h => hcon (h ▸ ndLe_refl a)))
  have hD : ∀ b ∈ l.dropWhile (fun c => decide ¬ ndLe a c), b = a := by
    intro b hb
    have h1 : ndLe a b := ndLe_of_mem_dropWhile hs hb
    have h2 : b ∈ l := (List.dropWhile_sublist _).subset hb
    have h3 : ndLe b (l.getLastD (0, 0)) := sorted_ndLe_getLastD hs h2 _
    have h4 : ndLe b a := IsTrans.trans (r := ndLe) _ _ _ h3 hlast_le
    exact IsAntisymm.antisymm (r := ndLe) _ _ h4 h1
  have hrep := List.eq_replicate_of_mem hD
  rw [List.orderedInsert_eq_take_drop, List.dropLast_append_cons, hrep]
  have : (a :: List.replicate (l.dropWhile (fun c => decide ¬ ndLe a c)).length a)
      = List.replicate ((l.dropWhile (fun c => decide ¬ ndLe a c)).length) a ++ [a] := by
    rw [← List.replicate_succ' , List.replicate_succ]
  rw [this, List.dropLast_concat, ← hrep, List.takeWhile_append_dropWhile]

-- ------------------------------------------------------------------
-- C4 amended theorem
-- ------------------------------------------------------------------

/-- C4 amended: a push into a sorted, within-capacity collector is inserted
iff the collector holds fewer than `k` entries or the pushed `(distance, id)`
pair is lexicographically smaller than the stored maximum; on a distance
tie with the maximum the entry with the *smaller id* survives, regardless of
push order. -/
theorem C4_push_keeps_lex_smaller (t : TopK) (id : NodeID) (d : ℚ)
    (hs : t.entries.Sorted ndLe) (hlen : t.entries.length ≤ t.k) :
    (t.push id d).entries =
      if t.entries.length < t.k then t.entries.orderedInsert ndLe (d, id)
      else if ndLt (d, id) (t.entries.getLastD (0, 0)) then
        (t.entries.orderedInsert ndLe (d, id)).dropLast
      else t.entries := by
  rw [TopK.push, TopK.push_nd]
  simp only [List.orderedInsert_length]
  by_cases hfull : t.entries.length < t.k
  · rw [if_pos hfull, if_neg (by omega)]
  · have hk : t.entries.length = t.k := Nat.le_antisymm hlen (Nat.le_of_not_lt hfull)
    rw [if_neg hfull, if_pos (by omega)]
    by_cases hlt : ndLt (d, id) (t.entries.getLastD (0, 0))
    · rw [if_pos hlt]
    · rw [if_neg hlt]
      show (t.entries.orderedInsert ndLe (d, id)).dropLast = t.entries
      exact orderedInsert_dropLast_of_not_lt (d, id) t.entries hs hlt

/-- C4 witness: full capacity-2 collector `[(0,3), (1,5)]`; pushing `(1, 7)`
(tie with the maximum distance, larger id) leaves it unchanged. -/
theorem C4_witness :
    ((⟨2, [((0 : ℚ), 3), ((1 : ℚ), 5)]⟩ : TopK).push 7 1).entries =
      [((0 : ℚ), 3), ((1 : ℚ), 5)] := by
  have happ := C4_push_keeps_lex_smaller ⟨2, [((0 : ℚ), 3), ((1 : ℚ), 5)]⟩ 7 1
    (by norm_num [List.sorted_cons, ndLe]) (by norm_num)
  rw [happ]
  norm_num [ndLt, List.getLastD]

-- ------------------------------------------------------------------
-- mapRes lemmas
-- ------------------------------------------------------------------

theorem mapRes_congr_ok {α β : Type} (f : α → Res β) (g : α → β) (l : List α)
    (h : ∀ x ∈ l, f x = Except.ok (g x)) : mapRes f l = Except.ok (l.map g) := by
  induction l with
  | nil => rfl
  | cons x xs ih =>
    rw [mapRes, h x (List.mem_cons_self x xs),
      ih (fun y hy => h y (List.mem_cons_of_mem x hy))]
    rfl

theorem mapRes_ok_mem {α β : Type} {f : α → Res β} {l : List α} {ys : List β}
    (h : mapRes f l = Except.ok ys) : ∀ y ∈ ys, ∃ x ∈ l, f x = Except.ok y := by
  induction l generalizing ys with
  | nil =>
    rw [mapRes] at h
    cases h
    intro y hy
    cases hy
  | cons x xs ih =>
    rw [mapRes] at h
    match hf : f x with
    | Except.error e => rw [hf] at h; cases h
    | Except.ok y0 =>
      rw [hf] at h
      match hm : mapRes f xs with
      | Except.error e => rw [hm] at h; cases h
      | Except.ok ys0 =>
        rw [hm] at h
        cases h
        intro y hy
        rcases List.mem_cons.mp hy with rfl | hy'
        · exact ⟨x, List.mem_cons_self x xs, hf⟩
        · obtain ⟨x', hx', hfx'⟩ := ih hm y hy'
          exact ⟨x', List.mem_cons_of_mem x hx', hfx'⟩

theorem mapRes_ok_get {α β : Type} {f : α → Res β} {l : List α} {ys : List β}
    (h : mapRes f l = Except.ok ys) :
    ys.length = l.length ∧
      ∀ i (hi : i < l.length) (hi' : i < ys.length),
        f (l.get ⟨i, hi⟩) = Except.ok (ys.get ⟨i, hi'⟩) := by
  induction l generalizing ys with
  | nil =>
    rw [mapRes] at h
    cases h
    exact ⟨rfl, fun i hi => absurd hi (Nat.not_lt_zero i)⟩
  | cons x xs ih =>
    rw [mapRes] at h
    match hf : f x with
    | Except.error e => rw [hf] at h; cases h
    | Except.ok y0 =>
      rw [hf] at h
      match hm : mapRes f xs with
      | Except.error e => rw [hm] at h; cases h
      | Except.ok ys0 =>
        rw [hm] at h
        cases h
        obtain ⟨hlen, hget⟩ := ih hm
        refine ⟨by simp [hlen], ?_⟩
        intro i hi hi'
        cases i with
        | zero => exact hf
        | succ j =>
          exact hget j (Nat.lt_of_succ_lt_succ hi) (Nat.lt_of_succ_lt_succ hi')

-- ------------------------------------------------------------------
-- C7
-- ------------------------------------------------------------------

/-- C7 counterexample: `fit` with an *empty* node-id set and
`max_nodes_per_leaf = 1` does not fail at all — it succeeds and builds one
tree holding a single empty Leaf. -/
theorem C7_counterexample :
    Ann.fit prngId esA 1 1 none none (some []) 0 5 =
      Except.ok ⟨[[ATree.Leaf []]]⟩ ∧
    Ann.fit prngId esA 1 1 none none (some []) 0 5 ≠
      Except.error Err.fatal := by
  refine ⟨rfl, ?_⟩
  intro h
  rw [show Ann.fit prngId esA 1 1 none none (some []) 0 5 =
    Except.ok ⟨[[ATree.Leaf []]]⟩ from rfl] at h
  exact Except.noConfusion h

/-- C7 amended: `fit` on an empty node-id set performs no validation and
does not fail fast; whenever `max_nodes_per_leaf ≥ 1` (so the empty slice
falls under the leaf cutoff) it succeeds, making every tree a single empty
Leaf.  (With `max_nodes_per_leaf = 0` it panics inside the split chooser —
during, not before, tree construction.) -/
theorem C7_fit_empty_input_succeeds (prng : ℕ → ℕ → ℕ) (es : EmbeddingStore)
    (n_trees max_nodes_per_leaf : ℕ) (th ns : Option ℕ) (seed fuel : ℕ)
    (hm : 1 ≤ max_nodes_per_leaf) (hf : 1 ≤ fuel) :
    Ann.fit prng es n_trees max_nodes_per_leaf th ns (some []) seed fuel =
      Except.ok ⟨List.replicate n_trees [ATree.Leaf []]⟩ := by
  obtain ⟨f, rfl⟩ : ∃ f, fuel = f + 1 := ⟨fuel - 1, by omega⟩
  have hone : ∀ idx, fit_one_tree prng
      (fit_config max_nodes_per_leaf th ns) es
      (base_indices es (some [])) seed idx (f + 1) =
      Except.ok [ATree.Leaf []] := by
    intro idx
    rw [fit_one_tree, show base_indices es (some []) = [] from rfl, fit_group_]
    rw [if_pos (by simpa [fit_config] using hm)]
    rfl
  rw [Ann.fit, mapRes_congr_ok _ (fun _ => [ATree.Leaf []]) _
    (fun x _ => hone x)]
  simp [List.map_const']

/-- C7 witness for the amended theorem. -/
theorem C7_witness :
    Ann.fit prngId esA 2 1 none none (some []) 0 1 =
      Except.ok ⟨List.replicate 2 [ATree.Leaf []]⟩ :=
  C7_fit_empty_input_succeeds prngId esA 2 1 none none 0 1 (by omega) (by omega)

-- ------------------------------------------------------------------
-- C6
-- ------------------------------------------------------------------

theorem score_leaf_k_zero (es : EmbeddingStore) (emb : List ℚ)
    (ids : List NodeID) : score_leaf es emb ids ⟨0, []⟩ = ⟨0, []⟩ := by
  induction ids with
  | nil => rfl
  | cons i t ih =>
    show score_leaf es emb t (TopK.push ⟨0, []⟩ i _) = ⟨0, []⟩
    exact ih

theorem tree_predict_go_k_zero (fuel : ℕ) (tt : TreeTable)
    (es : EmbeddingStore) (emb : List ℚ) (ms : ℕ) (heap : List (ℚ × ℕ))
    (visited : ℕ) (res : TopK)
    (h : tree_predict_go fuel tt es emb ms heap ⟨0, []⟩ visited =
      Except.ok res) : res = ⟨0, []⟩ := by
  induction fuel generalizing heap visited with
  | zero => cases h
  | succ fuel ih =>
    match heap with
    | [] =>
      rw [tree_predict_go] at h
      cases h
      rfl
    | (p, idx) :: heap' =>
      rw [tree_predict_go] at h
      match htt : tt[idx]? with
      | none => rw [htt] at h; cases h
      | some (ATree.Leaf indices) =>
        rw [htt] at h
        simp only [score_leaf_k_zero] at h
        by_cases hv : ms ≤ visited + indices.length
        · rw [if_pos hv] at h; cases h; rfl
        · rw [if_neg hv] at h; exact ih _ _ h
      | some (ATree.Split hp a b) =>
        rw [htt] at h
        simp only at h
        by_cases hv : ms ≤ visited
        · rw [if_pos hv] at h; cases h; rfl
        · rw [if_neg hv] at h; exact ih _ _ h

theorem tree_predict_k_zero (fuel : ℕ) (tt : TreeTable) (es : EmbeddingStore)
    (emb : List ℚ) (ms : ℕ) (l : List (NodeID × ℚ))
    (h : tree_predict fuel tt es emb 0 ms = Except.ok l) : l = [] := by
  rw [tree_predict] at h
  by_cases hz : tt.length = 0
  · rw [if_pos hz] at h; cases h
  · rw [if_neg hz] at h
    match hgo : tree_predict_go fuel tt es emb (max ms 0)
        [(0, tt.length - 1)] (TopK.new 0) 0 with
    | Except.error e => rw [hgo] at h; cases h
    | Except.ok ret =>
      rw [hgo] at h
      have : ret = ⟨0, []⟩ := tree_predict_go_k_zero _ _ _ _ _ _ _ _ hgo
      cases h
      rw [this]
      rfl

/-- C6: the claim says `predict` with `k = 0` returns the empty sequence.
It never does: with `k = 0` every per-tree traversal returns an empty
candidate list, and `predict` then reads `all_scores[0]` of the empty
candidate vector, which panics (`Err.fatal`) — `predict` with `k = 0` never
returns `Except.ok` at all. -/
theorem C6_predict_k_zero_never_ok (fuel : ℕ) (ann : Ann)
    (es : EmbeddingStore) (emb : List ℚ) (min_search_nodes : Option ℕ)
    (out : List (ℚ × ℕ)) :
    Ann.predict fuel ann es emb 0 min_search_nodes ≠ Except.ok out := by
  intro h
  rw [Ann.predict] at h
  match hc : Ann.all_candidates fuel ann es emb 0 min_search_nodes with
  | Except.error e => rw [hc] at h; cases h
  | Except.ok cands =>
    rw [hc] at h
    have hnil : cands = [] := by
      rw [Ann.all_candidates] at hc
      match hm : mapRes (fun tree => tree_predict fuel tree es emb 0
          (min_search_nodes.getD (ann.trees.length * 0))) ann.trees with
      | Except.error e => rw [hm] at hc; cases hc
      | Except.ok scores =>
        rw [hm] at hc
        cases hc
        have hall : ∀ s ∈ scores, s = [] := by
          intro s hs
          obtain ⟨t, _, ht⟩ := mapRes_ok_mem hm s hs
          exact tree_predict_k_zero _ _ _ _ _ _ ht
        rw [List.flatten_eq_nil_iff.mpr hall]
        rfl
    rw [hnil] at h
    have h' : Except.error Err.fatal = Except.ok out := h
    cases h'

/-- C6 closed evaluation at a concrete failing input: a fitted one-leaf
forest, query `[0]`, `k = 0` — the result is the modelled panic. -/
theorem C6_concrete_panic :
    Ann.predict 5 ⟨[[ATree.Leaf [0]]]⟩ esA [0] 0 none =
      Except.error Err.fatal := rfl


-- ------------------------------------------------------------------
-- sort_binary is a permutation
-- ------------------------------------------------------------------

theorem set_cons_perm {α : Type} [Inhabited α] :
    ∀ (t : List α) (k : ℕ) (a : α), k < t.length →
      List.Perm (t.getD k default :: t.set k a) (a :: t) := by
  intro t
  induction t with
  | nil => intro k a hk; cases hk
  | cons b t' ih =>
    intro k a hk
    cases k with
    | zero => simpa using List.Perm.swap a b t'
    | succ k =>
      have hk' : k < t'.length := Nat.lt_of_succ_lt_succ hk
      have h1 : List.Perm (t'.getD k default :: b :: t'.set k a)
          (b :: t'.getD k default :: t'.set k a) := List.Perm.swap _ _ _
      have h2 : List.Perm (b :: t'.getD k default :: t'.set k a)
          (b :: a :: t') := List.Perm.cons b (ih k a hk')
      have h3 : List.Perm (b :: a :: t') (a :: b :: t') := List.Perm.swap _ _ _
      simpa using (h1.trans h2).trans h3

theorem list_swap_perm {α : Type} [Inhabited α] :
    ∀ (l : List α) (i j : ℕ), i < l.length → j < l.length →
      List.Perm (list_swap l i j) l := by
  intro l
  induction l with
  | nil => intro i j hi; cases hi
  | cons x t ih =>
    intro i j hi hj
    cases i with
    | zero =>
      cases j with
      | zero => simp [list_swap]
      | succ k =>
        have hk : k < t.length := Nat.lt_of_succ_lt_succ hj
        simpa [list_swap] using set_cons_perm t k x hk
    | succ m =>
      cases j with
      | zero =>
        have hm : m < t.length := Nat.lt_of_succ_lt_succ hi
        simpa [list_swap] using set_cons_perm t m x hm
      | succ k =>
        have hm : m < t.length := Nat.lt_of_succ_lt_succ hi
        have hk : k < t.length := Nat.lt_of_succ_lt_succ hj
        simpa [list_swap] using List.Perm.cons x (ih m k hm hk)

theorem sort_binary_go_perm :
    ∀ (n : ℕ) (vec : List (NodeID × Bool)) (low cur : ℕ),
      vec.length - cur = n → low ≤ cur →
      List.Perm (sort_binary_go vec low cur) vec := by
  intro n
  induction n with
  | zero =>
    intro vec low cur hn _
    rw [sort_binary_go, dif_neg (by omega)]
  | succ n ih =>
    intro vec low cur hn hlc
    have hcur : cur < vec.length := by omega
    rw [sort_binary_go, dif_pos hcur]
    by_cases hflag : (vec.getD cur default).2 = false
    · rw [if_pos hflag]
      have hswap : List.Perm (list_swap vec cur low) vec :=
        list_swap_perm vec cur low hcur (by omega)
      have hlen : (list_swap vec cur low).length = vec.length := by
        simp [list_swap]
      exact (ih (list_swap vec cur low) (low + 1) (cur + 1)
        (by omega) (by omega)).trans hswap
    · rw [if_neg hflag]
      exact ih vec low (cur + 1) (by omega) (by omega)

theorem sort_binary_perm (vec : List (NodeID × Bool)) :
    List.Perm (sort_binary vec) vec :=
  sort_binary_go_perm (vec.length - 0) vec 0 0 rfl (Nat.le_refl 0)

-- ------------------------------------------------------------------
-- C10: every fit_group_ branch appends at least one node
-- ------------------------------------------------------------------

theorem fit_group_grows :
    ∀ (fuel : ℕ) (cfg : AnnBuildConfig) (tt : TreeTable) (d : ℕ)
      (es : EmbeddingStore) (inds : List (NodeID × Bool)) (r : Rng)
      (tt' : TreeTable) (idx : ℕ) (r' : Rng),
      fit_group_ fuel cfg tt d es inds r = Except.ok (tt', idx, r') →
      tt.length < tt'.length ∧ idx = tt'.length - 1 := by
  intro fuel cfg
  induction fuel with
  | zero => intro tt d es inds r tt' idx r' h; cases h
  | succ fuel ih =>
    intro tt d es inds r tt' idx r' h
    rw [fit_group_] at h
    by_cases h1 : inds.length < cfg.max_nodes_per_leaf
    · rw [if_pos h1] at h
      cases h
      exact ⟨by simp, rfl⟩
    · rw [if_neg h1] at h
      match hhp : (if 0 < cfg.test_hp_per_split then
          compute_simple_splits fuel inds es cfg.test_hp_per_split
            cfg.num_sampled_nodes_split_test r
        else
          compute_normal_rp fuel inds es cfg.num_sampled_nodes_split_test r) with
      | Except.error e => rw [hhp] at h; cases h
      | Except.ok (hp, r1) =>
        rw [hhp] at h
        simp only [] at h
        by_cases h2 : 0 < (above_slice es hp inds).length ∧
            0 < (below_slice es hp inds).length
        · rw [if_pos h2] at h
          match hab : fit_group_ fuel cfg tt (d + 1) es
              (above_slice es hp inds) r1 with
          | Except.error e => rw [hab] at h; cases h
          | Except.ok (t1, ai, r2) =>
            rw [hab] at h
            simp only [] at h
            match hbe : fit_group_ fuel cfg t1 (d + 1) es
                (below_slice es hp inds) r2 with
            | Except.error e => rw [hbe] at h; cases h
            | Except.ok (t2, bi, r3) =>
              rw [hbe] at h
              simp only [] at h
              cases h
              have hg1 := ih tt (d + 1) es _ r1 t1 ai r2 hab
              have hg2 := ih t1 (d + 1) es _ r2 t2 bi _ hbe
              refine ⟨?_, rfl⟩
              simp only [List.length_append, List.length_cons, List.length_nil]
              omega
        · rw [if_neg h2] at h
          cases h
          exact ⟨by simp, rfl⟩

/-- C10: after any successful `fit`, every tree's arena holds at least one
node, so the root access at index `len - 1` in `tree_predict`, `depth`,
`tree_leaf_index` and `tree_leaf_path` never underflows. -/
theorem C10_fitted_trees_nonempty (prng : ℕ → ℕ → ℕ) (es : EmbeddingStore)
    (n_trees mnpl : ℕ) (th ns : Option ℕ) (nids : Option (List NodeID))
    (seed fuel : ℕ) (ann : Ann)
    (h : Ann.fit prng es n_trees mnpl th ns nids seed fuel = Except.ok ann) :
    ∀ t ∈ ann.trees, 0 < t.length := by
  rw [Ann.fit] at h
  match hm : mapRes (fun idx => fit_one_tree prng
      (fit_config mnpl th ns) es (base_indices es nids) seed idx fuel)
      (List.range n_trees) with
  | Except.error e => rw [hm] at h; cases h
  | Except.ok trees =>
    rw [hm] at h
    cases h
    intro t ht
    obtain ⟨i, _, hone⟩ := mapRes_ok_mem hm t ht
    rw [fit_one_tree] at hone
    match hg : fit_group_ fuel (fit_config mnpl th ns) []
        1 es (base_indices es nids) ⟨prng (seed + i), 0⟩ with
    | Except.error e => rw [hg] at hone; cases hone
    | Except.ok res =>
      rw [hg] at hone
      cases hone
      have := (fit_group_grows fuel _ [] 1 es _ _ res.1 res.2.1 res.2.2
        (by rw [hg])).1
      simpa using this

/-- C10 witness. -/
theorem C10_witness : 0 < ([ATree.Leaf [0, 1]] : TreeTable).length :=
  C10_fitted_trees_nonempty prngId esA 1 5 none none none 0 5
    ⟨[[ATree.Leaf [0, 1]]]⟩ rfl [ATree.Leaf [0, 1]] (by simp)

-- ------------------------------------------------------------------
-- C8: the leaves of a fitted tree hold exactly the input ids
-- ------------------------------------------------------------------

theorem leaf_ids_append (tt : TreeTable) (n : ATree) :
    leaf_ids (tt ++ [n]) = leaf_ids tt + n.node_leaf_ids := by
  simp [leaf_ids]

theorem labeled_slice_ids (es : EmbeddingStore) (hp : Hyperplane)
    (inds : List (NodeID × Bool)) :
    (labeled_slice es hp inds).map (fun v => v.1) =
      inds.map (fun v => v.1) := by
  simp [labeled_slice]

theorem sorted_ids_multiset (es : EmbeddingStore) (hp : Hyperplane)
    (inds : List (NodeID × Bool)) :
    (((sort_binary (labeled_slice es hp inds)).map (fun v => v.1) : List ℕ) :
      Multiset ℕ) = ((inds.map (fun v => v.1) : List ℕ) : Multiset ℕ) := by
  rw [Multiset.coe_eq_coe, ← labeled_slice_ids es hp inds]
  exact (sort_binary_perm (labeled_slice es hp inds)).map (fun v => v.1)

theorem below_above_ids_multiset (es : EmbeddingStore) (hp : Hyperplane)
    (inds : List (NodeID × Bool)) :
    (((below_slice es hp inds).map (fun v => v.1) : List ℕ) : Multiset ℕ) +
      (((above_slice es hp inds).map (fun v => v.1) : List ℕ) : Multiset ℕ) =
      ((inds.map (fun v => v.1) : List ℕ) : Multiset ℕ) := by
  rw [Multiset.coe_add, ← List.map_append, below_slice, above_slice,
    List.take_append_drop]
  exact sorted_ids_multiset es hp inds

theorem fit_group_leaf_ids :
    ∀ (fuel : ℕ) (cfg : AnnBuildConfig) (tt : TreeTable) (d : ℕ)
      (es : EmbeddingStore) (inds : List (NodeID × Bool)) (r : Rng)
      (tt' : TreeTable) (idx : ℕ) (r' : Rng),
      fit_group_ fuel cfg tt d es inds r = Except.ok (tt', idx, r') →
      leaf_ids tt' = leaf_ids tt + ((inds.map (fun v => v.1) : List ℕ) : Multiset ℕ) := by
  intro fuel cfg
  induction fuel with
  | zero => intro tt d es inds r tt' idx r' h; cases h
  | succ fuel ih =>
    intro tt d es inds r tt' idx r' h
    rw [fit_group_] at h
    by_cases h1 : inds.length < cfg.max_nodes_per_leaf
    · rw [if_pos h1] at h
      cases h
      rw [leaf_ids_append]
      rfl
    · rw [if_neg h1] at h
      match hhp : (if 0 < cfg.test_hp_per_split then
          compute_simple_splits fuel inds es cfg.test_hp_per_split
            cfg.num_sampled_nodes_split_test r
        else
          compute_normal_rp fuel inds es cfg.num_sampled_nodes_split_test r) with
      | Except.error e => rw [hhp] at h; cases h
      | Except.ok (hp, r1) =>
        rw [hhp] at h
        simp only [] at h
        by_cases h2 : 0 < (above_slice es hp inds).length ∧
            0 < (below_slice es hp inds).length
        · rw [if_pos h2] at h
          match hab : fit_group_ fuel cfg tt (d + 1) es
              (above_slice es hp inds) r1 with
          | Except.error e => rw [hab] at h; cases h
          | Except.ok (t1, ai, r2) =>
            rw [hab] at h
            simp only [] at h
            match hbe : fit_group_ fuel cfg t1 (d + 1) es
                (below_slice es hp inds) r2 with
            | Except.error e => rw [hbe] at h; cases h
            | Except.ok (t2, bi, r3) =>
              rw [hbe] at h
              simp only [] at h
              cases h
              have hg1 := ih tt (d + 1) es _ r1 t1 ai r2 hab
              have hg2 := ih t1 (d + 1) es _ r2 t2 bi _ hbe
              rw [leaf_ids_append, hg2, hg1]
              show leaf_ids tt +
                  ((above_slice es hp inds).map (fun v => v.1) : Multiset ℕ) +
                  ((below_slice es hp inds).map (fun v => v.1) : Multiset ℕ) + 0 =
                leaf_ids tt + ((inds.map (fun v => v.1) : List ℕ) : Multiset ℕ)
              rw [add_zero, add_assoc,
                add_comm (((above_slice es hp inds).map (fun v => v.1) : List ℕ) :
                  Multiset ℕ),
                below_above_ids_multiset es hp inds]
        · rw [if_neg h2] at h
          cases h
          rw [leaf_ids_append]
          show leaf_ids tt +
              ((sort_binary (labeled_slice es hp inds)).map (fun v => v.1) :
                Multiset ℕ) =
            leaf_ids tt + ((inds.map (fun v => v.1) : List ℕ) : Multiset ℕ)
          rw [sorted_ids_multiset es hp inds]

/-- C8: after a successful `fit`, for every tree of the forest the multiset
of NodeIDs across that tree's leaves is exactly the multiset of input ids
(each input NodeID in exactly one Leaf, no other ids). -/
theorem C8_leaves_partition_input_ids (prng : ℕ → ℕ → ℕ)
    (es : EmbeddingStore) (n_trees mnpl : ℕ) (th ns : Option ℕ)
    (nids : Option (List NodeID)) (seed fuel : ℕ) (ann : Ann)
    (h : Ann.fit prng es n_trees mnpl th ns nids seed fuel = Except.ok ann) :
    ∀ t ∈ ann.trees,
      leaf_ids t =
        (((base_indices es nids).map (fun v => v.1) : List ℕ) : Multiset ℕ) := by
  rw [Ann.fit] at h
  match hm : mapRes (fun idx => fit_one_tree prng
      (fit_config mnpl th ns) es (base_indices es nids) seed idx fuel)
      (List.range n_trees) with
  | Except.error e => rw [hm] at h; cases h
  | Except.ok trees =>
    rw [hm] at h
    cases h
    intro t ht
    obtain ⟨i, _, hone⟩ := mapRes_ok_mem hm t ht
    rw [fit_one_tree] at hone
    match hg : fit_group_ fuel (fit_config mnpl th ns) []
        1 es (base_indices es nids) ⟨prng (seed + i), 0⟩ with
    | Except.error e => rw [hg] at hone; cases hone
    | Except.ok res =>
      rw [hg] at hone
      cases hone
      have := fit_group_leaf_ids fuel _ [] 1 es _ _ res.1 res.2.1 res.2.2
        (by rw [hg])
      rw [this]
      show 0 + _ = _
      rw [zero_add]

/-- C8 witness: a concrete one-leaf fit over the whole two-id store. -/
theorem C8_witness :
    leaf_ids [ATree.Leaf [0, 1]] =
      (((base_indices esA none).map (fun v => v.1) : List ℕ) : Multiset ℕ) :=
  C8_leaves_partition_input_ids prngId esA 1 5 none none none 0 5
    ⟨[[ATree.Leaf [0, 1]]]⟩ rfl [ATree.Leaf [0, 1]] (by simp)

-- ------------------------------------------------------------------
-- C9: determinism of fit under a fixed seed
-- ------------------------------------------------------------------

/-- C9: `fit` is a pure function of the store, parameters, node ids, PRNG
family and seed — two calls with identical inputs yield identical forests —
and tree `i` of the result depends only on those inputs and the per-tree
seed `seed + i` (the cross-tree parallelism shares no mutable state in the
source; each tree is built from its own freshly seeded RNG). -/
theorem C9_fit_deterministic (prng : ℕ → ℕ → ℕ) (es : EmbeddingStore)
    (n_trees mnpl : ℕ) (th ns : Option ℕ) (nids : Option (List NodeID))
    (seed fuel : ℕ) (ann : Ann)
    (h : Ann.fit prng es n_trees mnpl th ns nids seed fuel = Except.ok ann) :
    Ann.fit prng es n_trees mnpl th ns nids seed fuel =
      Ann.fit prng es n_trees mnpl th ns nids seed fuel ∧
    ann.trees.length = n_trees ∧
    ∀ i (_hi : i < n_trees) (hi' : i < ann.trees.length),
      fit_one_tree prng (fit_config mnpl th ns) es (base_indices es nids)
        seed i fuel = Except.ok (ann.trees.get ⟨i, hi'⟩) := by
  refine ⟨rfl, ?_⟩
  rw [Ann.fit] at h
  match hm : mapRes (fun idx => fit_one_tree prng
      (fit_config mnpl th ns) es (base_indices es nids) seed idx fuel)
      (List.range n_trees) with
  | Except.error e => rw [hm] at h; cases h
  | Except.ok trees =>
    rw [hm] at h
    cases h
    obtain ⟨hlen, hget⟩ := mapRes_ok_get hm
    refine ⟨by simpa using hlen, ?_⟩
    intro i hi hi'
    have := hget i (by simpa using hi) hi'
    simpa [List.get_eq_getElem, List.getElem_range] using this

/-- C9 witness: the one-tree forest built from seed 0 is reproduced by its
per-tree builder at seed `0 + 0`. -/
theorem C9_witness :
    fit_one_tree prngId (fit_config 5 none none) esA (base_indices esA none)
      0 0 5 = Except.ok [ATree.Leaf [0, 1]] :=
  (C9_fit_deterministic prngId esA 1 5 none none none 0 5
    ⟨[[ATree.Leaf [0, 1]]]⟩ rfl).2.2 0 (by omega) (by simp)

-- ------------------------------------------------------------------
-- C1, part 1: every candidate's distance is determined by its id
-- ------------------------------------------------------------------

/-- The shape of every candidate a traversal can produce: its distance is
the store's distance between its node and the query. -/
def cand_prop (es : EmbeddingStore) (q : List ℚ) (e : ℚ × ℕ) : Prop :=
  e.1 = es.compute_distance (Entity.Node e.2) (Entity.Embedding q)

theorem push_nd_entries_sub (t : TopK) (nd : ℚ × ℕ) :
    ∀ e ∈ (t.push_nd nd).entries, e = nd ∨ e ∈ t.entries := by
  intro e he
  rw [TopK.push_nd] at he
  by_cases hl : t.k < (t.entries.orderedInsert ndLe nd).length
  · rw [if_pos hl] at he
    exact (List.mem_orderedInsert ndLe).mp
      ((List.dropLast_sublist _).subset he)
  · rw [if_neg hl] at he
    exact (List.mem_orderedInsert ndLe).mp he

theorem score_leaf_prop (es : EmbeddingStore) (q : List ℚ)
    (ids : List NodeID) :
    ∀ ret : TopK, (∀ e ∈ ret.entries, cand_prop es q e) →
      ∀ e ∈ (score_leaf es q ids ret).entries, cand_prop es q e := by
  induction ids with
  | nil => intro ret hret; exact hret
  | cons i t ih =>
    intro ret hret e he
    have hstep : ∀ e ∈ (ret.push i (es.compute_distance (Entity.Node i)
        (Entity.Embedding q))).entries, cand_prop es q e := by
      intro e' he'
      rcases push_nd_entries_sub ret _ e' he' with rfl | hmem
      · rfl
      · exact hret e' hmem
    exact ih _ hstep e he

theorem tree_predict_go_prop (es : EmbeddingStore) (q : List ℚ)
    (tt : TreeTable) (ms : ℕ) :
    ∀ (fuel : ℕ) (heap : List (ℚ × ℕ)) (ret : TopK) (visited : ℕ)
      (res : TopK),
      (∀ e ∈ ret.entries, cand_prop es q e) →
      tree_predict_go fuel tt es q ms heap ret visited = Except.ok res →
      ∀ e ∈ res.entries, cand_prop es q e := by
  intro fuel
  induction fuel with
  | zero => intro heap ret visited res _ h; cases h
  | succ fuel ih =>
    intro heap ret visited res hret h
    match heap with
    | [] =>
      rw [tree_predict_go] at h
      cases h
      exact hret
    | (p, idx) :: heap' =>
      rw [tree_predict_go] at h
      match htt : tt[idx]? with
      | none => rw [htt] at h; cases h
      | some (ATree.Leaf indices) =>
        rw [htt] at h
        simp only [] at h
        have hret' := score_leaf_prop es q indices ret hret
        by_cases hv : ms ≤ visited + indices.length
        · rw [if_pos hv] at h; cases h; exact hret'
        · rw [if_neg hv] at h; exact ih _ _ _ _ hret' h
      | some (ATree.Split hp a b) =>
        rw [htt] at h
        simp only [] at h
        by_cases hv : ms ≤ visited
        · rw [if_pos hv] at h; cases h; exact hret
        · rw [if_neg hv] at h; exact ih _ _ _ _ hret h

theorem tree_predict_prop (fuel : ℕ) (tt : TreeTable) (es : EmbeddingStore)
    (q : List ℚ) (k ms : ℕ) (l : List (NodeID × ℚ))
    (h : tree_predict fuel tt es q k ms = Except.ok l) :
    ∀ p ∈ l, p.2 =
      es.compute_distance (Entity.Node p.1) (Entity.Embedding q) := by
  rw [tree_predict] at h
  by_cases hz : tt.length = 0
  · rw [if_pos hz] at h; cases h
  · rw [if_neg hz] at h
    match hgo : tree_predict_go fuel tt es q (max ms k)
        [(0, tt.length - 1)] (TopK.new k) 0 with
    | Except.error e => rw [hgo] at h; cases h
    | Except.ok ret =>
      rw [hgo] at h
      cases h
      intro p hp
      obtain ⟨nd, hnd, rfl⟩ := List.mem_map.mp hp
      have := tree_predict_go_prop es q tt (max ms k) fuel _ _ _ _
        (by intro e he; cases he) hgo nd hnd
      exact this

theorem all_candidates_prop (fuel : ℕ) (ann : Ann) (es : EmbeddingStore)
    (q : List ℚ) (k : ℕ) (minsn : Option ℕ) (cands : List (ℚ × ℕ))
    (h : Ann.all_candidates fuel ann es q k minsn = Except.ok cands) :
    ∀ c ∈ cands, c.1 =
      es.compute_distance (Entity.Node c.2) (Entity.Embedding q) := by
  rw [Ann.all_candidates] at h
  match hm : mapRes (fun tree => tree_predict fuel tree es q k
      (minsn.getD (ann.trees.length * k))) ann.trees with
  | Except.error e => rw [hm] at h; cases h
  | Except.ok scores =>
    rw [hm] at h
    cases h
    intro c hc
    obtain ⟨p, hpmem, rfl⟩ := List.mem_map.mp hc
    obtain ⟨s, hs, hps⟩ := List.mem_flatten.mp hpmem
    obtain ⟨t, _, ht⟩ := mapRes_ok_mem hm s hs
    exact tree_predict_prop fuel t es q k _ s ht p hps

-- ------------------------------------------------------------------
-- C1, part 2: the dedup scan on a sorted id-functional list
-- ------------------------------------------------------------------

theorem ndLt_trans {a b c : ℚ × ℕ} (h1 : ndLt a b) (h2 : ndLt b c) :
    ndLt a c := by
  rcases h1 with h1 | ⟨h1, h1'⟩ <;> rcases h2 with h2 | ⟨h2, h2'⟩
  · exact Or.inl (h1.trans h2)
  · exact Or.inl (h2 ▸ h1)
  · exact Or.inl (h1 ▸ h2)
  · exact Or.inr ⟨h1.trans h2, h1'.trans h2'⟩

theorem dedup_adjacent_sublist (c : ℕ) (l : List (ℚ × ℕ)) :
    (dedup_adjacent_go c l).Sublist l := by
  induction l generalizing c with
  | nil => exact List.Sublist.refl []
  | cons z zs ih =>
    rw [dedup_adjacent_go]
    by_cases hz : z.2 = c
    · rw [if_pos hz]
      exact (ih c).cons z
    · rw [if_neg hz]
      exact (ih z.2).cons₂ z

theorem dedup_adjacent_mem (c : ℚ × ℕ) (l : List (ℚ × ℕ))
    (hs : List.Sorted ndGe (c :: l))
    (hP : ∀ a ∈ c :: l, ∀ b ∈ c :: l, a.2 = b.2 → a.1 = b.1) :
    ∀ y ∈ l, y = c ∨ y ∈ dedup_adjacent_go c.2 l := by
  induction l generalizing c with
  | nil => intro y hy; cases hy
  | cons z zs ih =>
    intro y hy
    rw [dedup_adjacent_go]
    by_cases hz : z.2 = c.2
    · have hzc : z = c := Prod.ext
        (hP z (by simp) c (by simp) hz) hz
      rw [if_pos hz]
      rcases List.mem_cons.mp hy with rfl | hy'
      · exact Or.inl hzc
      · have hs' : List.Sorted ndGe (c :: zs) := by
          have hsub : (c :: zs).Sublist (c :: z :: zs) :=
            ((List.sublist_cons_self z zs).cons₂ c)
          exact List.Pairwise.sublist hsub hs
        have hP' : ∀ a ∈ c :: zs, ∀ b ∈ c :: zs, a.2 = b.2 → a.1 = b.1 := by
          intro a ha b hb
          have hmem : ∀ w, w ∈ c :: zs → w ∈ c :: z :: zs := by
            intro w hw
            rcases List.mem_cons.mp hw with rfl | hw'
            · simp
            · simp [hw']
          exact hP a (hmem a ha) b (hmem b hb)
        exact ih c hs' hP' y hy'
    · rw [if_neg hz]
      rcases List.mem_cons.mp hy with rfl | hy'
      · exact Or.inr (List.mem_cons_self y _)
      · have hs' : List.Sorted ndGe (z :: zs) := (List.sorted_cons.mp hs).2
        have hP' : ∀ a ∈ z :: zs, ∀ b ∈ z :: zs, a.2 = b.2 → a.1 = b.1 := by
          intro a ha b hb
          exact hP a (List.mem_cons_of_mem c ha) b (List.mem_cons_of_mem c hb)
        rcases ih z hs' hP' y hy' with rfl | hmem
        · exact Or.inr (List.mem_cons_self y _)
        · exact Or.inr (List.mem_cons_of_mem z hmem)

theorem dedup_adjacent_lt_nodup (c : ℚ × ℕ) (l : List (ℚ × ℕ))
    (hs : List.Sorted ndGe (c :: l))
    (hP : ∀ a ∈ c :: l, ∀ b ∈ c :: l, a.2 = b.2 → a.1 = b.1) :
    (∀ y ∈ dedup_adjacent_go c.2 l, ndLt y c) ∧
      (dedup_adjacent_go c.2 l).Nodup := by
  induction l generalizing c with
  | nil => exact ⟨fun y hy => absurd hy (by simp [dedup_adjacent_go]), by
      simp [dedup_adjacent_go]⟩
  | cons z zs ih =>
    rw [dedup_adjacent_go]
    by_cases hz : z.2 = c.2
    · rw [if_pos hz]
      have hzc : z = c := Prod.ext (hP z (by simp) c (by simp) hz) hz
      have hs' : List.Sorted ndGe (c :: zs) := by
        have hsub : (c :: zs).Sublist (c :: z :: zs) :=
          ((List.sublist_cons_self z zs).cons₂ c)
        exact List.Pairwise.sublist hsub hs
      have hP' : ∀ a ∈ c :: zs, ∀ b ∈ c :: zs, a.2 = b.2 → a.1 = b.1 := by
        intro a ha b hb
        have hmem : ∀ w, w ∈ c :: zs → w ∈ c :: z :: zs := by
          intro w hw
          rcases List.mem_cons.mp hw with rfl | hw'
          · simp
          · simp [hw']
        exact hP a (hmem a ha) b (hmem b hb)
      exact ih c hs' hP'
    · rw [if_neg hz]
      have hs' : List.Sorted ndGe (z :: zs) := (List.sorted_cons.mp hs).2
      have hP' : ∀ a ∈ z :: zs, ∀ b ∈ z :: zs, a.2 = b.2 → a.1 = b.1 := by
        intro a ha b hb
        exact hP a (List.mem_cons_of_mem c ha) b (List.mem_cons_of_mem c hb)
      obtain ⟨hlt', hnodup'⟩ := ih z hs' hP'
      have hzc : ndLt z c := by
        have hle : ndLe z c := (List.sorted_cons.mp hs).1 z (by simp)
        exact ndLt_of_ndLe_ne hle (fun h => hz (congrArg Prod.snd h))
      constructor
      · intro y hy
        rcases List.mem_cons.mp hy with rfl | hy'
        · exact hzc
        · exact ndLt_trans (hlt' y hy') hzc
      · rw [List.nodup_cons]
        refine ⟨?_, hnodup'⟩
        intro hzin
        exact (ndLt_irrefl z) (hlt' z hzin)

-- ------------------------------------------------------------------
-- C1, part 3: the claim-side dedup-by-id function
-- ------------------------------------------------------------------

theorem min?_of_all_eq {l : List ℚ} {d : ℚ} (hne : l ≠ [])
    (hall : ∀ x ∈ l, x = d) : l.min? = some d := by
  induction l with
  | nil => exact absurd rfl hne
  | cons a t ih =>
    cases t with
    | nil =>
      have : a = d := hall a (by simp)
      simp [List.min?_cons, this]
    | cons b t' =>
      have ha : a = d := hall a (by simp)
      have hrec := ih (by simp) (fun x hx => hall x (List.mem_cons_of_mem a hx))
      rw [List.min?_cons, hrec]
      simp [ha, Option.elim]

theorem mem_dedup_by_id_iff (cands : List (ℚ × ℕ))
    (hP : ∀ a ∈ cands, ∀ b ∈ cands, a.2 = b.2 → a.1 = b.1) (y : ℚ × ℕ) :
    y ∈ dedup_by_id_keep_min cands ↔ y ∈ cands := by
  have hmin : ∀ c ∈ cands,
      (((cands.filter (fun x => x.2 = c.2)).map Prod.fst).min?).getD 0 = c.1 := by
    intro c hc
    have hne : (cands.filter (fun x => x.2 = c.2)).map Prod.fst ≠ [] := by
      have : c ∈ cands.filter (fun x => x.2 = c.2) :=
        List.mem_filter.mpr ⟨hc, by simp⟩
      intro hcon
      rw [List.map_eq_nil_iff] at hcon
      rw [hcon] at this
      cases this
    have hall : ∀ x ∈ (cands.filter (fun x => x.2 = c.2)).map Prod.fst,
        x = c.1 := by
      intro x hx
      obtain ⟨c', hc', rfl⟩ := List.mem_map.mp hx
      obtain ⟨hc'mem, hc'id⟩ := List.mem_filter.mp hc'
      exact hP c' hc'mem c hc (by simpa using hc'id)
    rw [min?_of_all_eq hne hall]
    rfl
  constructor
  · intro hy
    obtain ⟨id, hid, rfl⟩ := List.mem_map.mp hy
    rw [List.mem_dedup] at hid
    obtain ⟨c, hc, rfl⟩ := List.mem_map.mp hid
    have := hmin c hc
    rw [this]
    simpa using hc
  · intro hy
    rw [dedup_by_id_keep_min]
    refine List.mem_map.mpr ⟨y.2, ?_, ?_⟩
    · rw [List.mem_dedup]
      exact List.mem_map.mpr ⟨y, hy, rfl⟩
    · rw [hmin y hy]

theorem nodup_dedup_by_id (cands : List (ℚ × ℕ)) :
    (dedup_by_id_keep_min cands).Nodup := by
  rw [dedup_by_id_keep_min]
  refine List.Nodup.map_on ?_ (List.nodup_dedup _)
  intro x _ y _ hxy
  exact congrArg Prod.snd hxy

-- ------------------------------------------------------------------
-- C1, part 4: the code pipeline equals the claim pipeline
-- ------------------------------------------------------------------

theorem code_pipeline_eq_spec (cands : List (ℚ × ℕ))
    (hP : ∀ a ∈ cands, ∀ b ∈ cands, a.2 = b.2 → a.1 = b.1)
    (x : ℚ × ℕ) (rest : List (ℚ × ℕ))
    (hsort : sort_desc cands = x :: rest) :
    (x :: dedup_adjacent_go x.2 rest).reverse =
      sort_asc (dedup_by_id_keep_min cands) := by
  have hperm : List.Perm (sort_desc cands) cands :=
    List.perm_insertionSort ndGe cands
  have hmem_sd : ∀ z, z ∈ x :: rest ↔ z ∈ cands := by
    intro z
    rw [← hsort]
    exact hperm.mem_iff
  have hP' : ∀ a ∈ x :: rest, ∀ b ∈ x :: rest, a.2 = b.2 → a.1 = b.1 :=
    fun a ha b hb => hP a ((hmem_sd a).mp ha) b ((hmem_sd b).mp hb)
  have hsorted : List.Sorted ndGe (x :: rest) := by
    rw [← hsort]
    exact List.sorted_insertionSort ndGe cands
  have hsubD : (x :: dedup_adjacent_go x.2 rest).Sublist (x :: rest) :=
    (dedup_adjacent_sublist x.2 rest).cons₂ x
  have hsortD : List.Sorted ndGe (x :: dedup_adjacent_go x.2 rest) :=
    List.Pairwise.sublist hsubD hsorted
  have hsortA : List.Sorted ndLe (x :: dedup_adjacent_go x.2 rest).reverse := by
    rw [List.Sorted, List.pairwise_reverse]
    exact hsortD
  obtain ⟨hltD, hnodupD'⟩ := dedup_adjacent_lt_nodup x rest hsorted hP'
  have hnodupD : (x :: dedup_adjacent_go x.2 rest).Nodup := by
    rw [List.nodup_cons]
    exact ⟨fun hin => (ndLt_irrefl x) (hltD x hin), hnodupD'⟩
  have hnodupA : (x :: dedup_adjacent_go x.2 rest).reverse.Nodup :=
    List.nodup_reverse.mpr hnodupD
  have hmemD : ∀ z, z ∈ x :: dedup_adjacent_go x.2 rest ↔ z ∈ cands := by
    intro z
    constructor
    · intro hz
      exact (hmem_sd z).mp (hsubD.subset hz)
    · intro hz
      rcases List.mem_cons.mp ((hmem_sd z).mpr hz) with rfl | hz'
      · exact List.mem_cons_self z _
      · rcases dedup_adjacent_mem x rest hsorted hP' z hz' with rfl | hz''
        · exact List.mem_cons_self z _
        · exact List.mem_cons_of_mem x hz''
  have hsortB : List.Sorted ndLe (sort_asc (dedup_by_id_keep_min cands)) :=
    List.sorted_insertionSort ndLe _
  have hpermB : List.Perm (sort_asc (dedup_by_id_keep_min cands))
      (dedup_by_id_keep_min cands) := List.perm_insertionSort ndLe _
  have hnodupB : (sort_asc (dedup_by_id_keep_min cands)).Nodup :=
    hpermB.nodup_iff.mpr (nodup_dedup_by_id cands)
  have hmemB : ∀ z, z ∈ sort_asc (dedup_by_id_keep_min cands) ↔ z ∈ cands := by
    intro z
    rw [hpermB.mem_iff]
    exact mem_dedup_by_id_iff cands hP z
  have hpermAB : List.Perm (x :: dedup_adjacent_go x.2 rest).reverse
      (sort_asc (dedup_by_id_keep_min cands)) := by
    rw [List.perm_ext_iff_of_nodup hnodupA hnodupB]
    intro z
    rw [List.mem_reverse]
    exact (hmemD z).trans (hmemB z).symm
  exact List.eq_of_perm_of_sorted hpermAB hsortA hsortB

-- ------------------------------------------------------------------
-- C1: predict returns the k smallest fused candidates
-- ------------------------------------------------------------------

/-- C1: whenever `predict` completes, its output is exactly the claim's
value: the fused per-tree candidates, deduplicated by NodeID keeping the
smallest-distance occurrence, sorted ascending by `(distance, id)`, and
truncated to the `k` smallest.  (The deduplication is total, not merely
adjacent, because each NodeID's distance is a function of the store, so
duplicate ids carry identical distances and the descending sort makes them
adjacent; the final `reverse` of the inverted-`Ord` descending sort yields
ascending order — the §9 worry does not materialize.) -/
theorem C1_predict_k_smallest (fuel : ℕ) (ann : Ann) (es : EmbeddingStore)
    (q : List ℚ) (k : ℕ) (minsn : Option ℕ) (cands out : List (ℚ × ℕ))
    (_hk : 1 ≤ k)
    (hc : Ann.all_candidates fuel ann es q k minsn = Except.ok cands)
    (hout : Ann.predict fuel ann es q k minsn = Except.ok out) :
    out = spec_fused_top_k cands k := by
  have hP : ∀ a ∈ cands, ∀ b ∈ cands, a.2 = b.2 → a.1 = b.1 := by
    intro a ha b hb hid
    rw [all_candidates_prop fuel ann es q k minsn cands hc a ha,
      all_candidates_prop fuel ann es q k minsn cands hc b hb, hid]
  rw [Ann.predict, hc] at hout
  simp only [] at hout
  match hsd : sort_desc cands with
  | [] => rw [hsd] at hout; cases hout
  | x :: rest =>
    rw [hsd] at hout
    simp only [] at hout
    cases hout
    rw [spec_fused_top_k, code_pipeline_eq_spec cands hP x rest hsd]

/-- C1 witness: a concrete two-tree forest whose trees share their ids. -/
theorem C1_witness :
    Ann.all_candidates 20 ⟨[[ATree.Leaf [0, 1]], [ATree.Leaf [0, 1]]]⟩ esA
      [0] 1 none = Except.ok [((0 : ℚ), 0), ((0 : ℚ), 0)] ∧
    Ann.predict 20 ⟨[[ATree.Leaf [0, 1]], [ATree.Leaf [0, 1]]]⟩ esA
      [0] 1 none = Except.ok [((0 : ℚ), 0)] ∧
    [((0 : ℚ), 0)] = spec_fused_top_k [((0 : ℚ), 0), ((0 : ℚ), 0)] 1 := by
  have h1 : Ann.all_candidates 20 ⟨[[ATree.Leaf [0, 1]], [ATree.Leaf [0, 1]]]⟩
      esA [0] 1 none = Except.ok [((0 : ℚ), 0), ((0 : ℚ), 0)] := by
    norm_num [Ann.all_candidates, mapRes, tree_predict, tree_predict_go,
      score_leaf, TopK.new, TopK.push, TopK.push_nd, TopK.into_sorted,
      List.orderedInsert, ndLe, esA, EmbeddingStore.compute_distance,
      EmbeddingStore.resolve]
  have h2 : Ann.predict 20 ⟨[[ATree.Leaf [0, 1]], [ATree.Leaf [0, 1]]]⟩ esA
      [0] 1 none = Except.ok [((0 : ℚ), 0)] := by
    norm_num [Ann.predict, h1, sort_desc, List.insertionSort,
      List.orderedInsert, ndGe, ndLe, dedup_adjacent_go]
  exact ⟨h1, h2, C1_predict_k_smallest 20 _ esA [0] 1 none _ _ (by omega)
    h1 h2⟩

-- ------------------------------------------------------------------
-- C2, part 1: divergence on a slice with a single node id
-- ------------------------------------------------------------------

theorem chooseElem_singleton (p : NodeID × Bool) (r : Rng) :
    chooseElem [p] r = some (p, ⟨r.stream, r.pos + 1⟩) := by
  simp [chooseElem, Rng.next, Nat.mod_one]

theorem choose_second_singleton_diverges (x : NodeID) (b : Bool) :
    ∀ (fuel : ℕ) (r : Rng),
      choose_second_distinct fuel x [(x, b)] r = Except.error Err.noFuel := by
  intro fuel
  induction fuel with
  | zero => intro r; rfl
  | succ fuel ih =>
    intro r
    rw [choose_second_distinct, chooseElem_singleton]
    simp only [if_pos rfl]
    exact ih _

theorem pseudo_kmeans_singleton_diverges (x : NodeID) (b : Bool)
    (es : EmbeddingStore) :
    ∀ (fuel iterations : ℕ) (r : Rng),
      pseudo_kmeans_w_vec_from_points fuel [(x, b)] es iterations r =
        Except.error Err.noFuel := by
  intro fuel iterations r
  rw [pseudo_kmeans_w_vec_from_points, chooseElem_singleton]
  simp only []
  rw [choose_second_singleton_diverges x b fuel]

theorem simple_splits_loop_singleton_diverges (x : NodeID) (b : Bool)
    (es : EmbeddingStore) (trials : ℕ) (htr : 0 < trials) :
    ∀ (fuel n ns : ℕ) (best : ℕ × Option Hyperplane) (r : Rng),
      simple_splits_loop fuel [(x, b)] es trials n ns best r =
        Except.error Err.noFuel := by
  obtain ⟨t, rfl⟩ : ∃ t, trials = t + 1 := ⟨trials - 1, by omega⟩
  intro fuel n ns best r
  rw [simple_splits_loop, pseudo_kmeans_singleton_diverges x b es fuel ns r]

theorem compute_simple_splits_singleton_diverges (x : NodeID) (b : Bool)
    (es : EmbeddingStore) (trials : ℕ) (htr : 0 < trials) :
    ∀ (fuel ns : ℕ) (r : Rng),
      compute_simple_splits fuel [(x, b)] es trials ns r =
        Except.error Err.noFuel := by
  intro fuel ns r
  rw [compute_simple_splits,
    simple_splits_loop_singleton_diverges x b es trials htr fuel _ ns (0, none) r]

theorem fit_group_singleton_diverges (x : NodeID) (es : EmbeddingStore)
    (cfg : AnnBuildConfig) (hm : cfg.max_nodes_per_leaf ≤ 1)
    (ht : 0 < cfg.test_hp_per_split) :
    ∀ (fuel : ℕ) (tt : TreeTable) (d : ℕ) (r : Rng),
      fit_group_ fuel cfg tt d es [(x, false)] r = Except.error Err.noFuel := by
  intro fuel tt d r
  cases fuel with
  | zero => rfl
  | succ fuel =>
    rw [fit_group_]
    rw [if_neg (by simp; omega)]
    rw [if_pos ht, compute_simple_splits_singleton_diverges x false es _ ht fuel _ r]

/-- C2 counterexample: with node-id set `{0}` and `max_nodes_per_leaf = 1`
the slice of length 1 misses the leaf cutoff (`1 < 1` is false) and reaches
the two-distinct-points selection loop, which redraws the same single id
forever: `fit` runs out of every fuel, i.e. the builder diverges.  The
claim's "any max_nodes_per_leaf" is false. -/
theorem C2_counterexample :
    ¬ fit_terminates prngId esA 1 1 none none (some [0]) 0 := by
  rw [fit_terminates]
  push_neg
  intro fuel
  rw [Ann.fit]
  have hbase : base_indices esA (some [0]) = [(0, false)] := rfl
  have hone : fit_one_tree prngId (fit_config 1 none none) esA
      (base_indices esA (some [0])) 0 0 fuel = Except.error Err.noFuel := by
    rw [fit_one_tree, hbase,
      fit_group_singleton_diverges 0 esA (fit_config 1 none none)
        (by simp [fit_config]) (by simp [fit_config]) fuel [] 1 _]
  rw [show List.range 1 = [0] from rfl, mapRes, hone]

-- ------------------------------------------------------------------
-- C2, part 2: fuel monotonicity
-- ------------------------------------------------------------------

theorem choose_second_mono :
    ∀ (f f' : ℕ), f ≤ f' → ∀ (x : NodeID) (l : List (NodeID × Bool)) (r : Rng),
      choose_second_distinct f x l r ≠ Except.error Err.noFuel →
      choose_second_distinct f' x l r = choose_second_distinct f x l r := by
  intro f
  induction f with
  | zero => intro f' _ x l r hne; exact absurd rfl hne
  | succ f ih =>
    intro f' hf x l r hne
    obtain ⟨f'', rfl⟩ : ∃ f'', f' = f'' + 1 := ⟨f' - 1, by omega⟩
    rw [choose_second_distinct] at hne
    simp only [choose_second_distinct]
    match hch : chooseElem l r with
    | none => rfl
    | some (p, r2) =>
      rw [hch] at hne
      simp only [] at hne ⊢
      by_cases hp : p.1 = x
      · rw [if_pos hp] at hne
        rw [if_pos hp, if_pos hp]
        exact ih f'' (by omega) x l r2 hne
      · rw [if_neg hp, if_neg hp]

theorem pseudo_kmeans_mono (f f' : ℕ) (hf : f ≤ f')
    (l : List (NodeID × Bool)) (es : EmbeddingStore) (it : ℕ) (r : Rng)
    (hne : pseudo_kmeans_w_vec_from_points f l es it r ≠
      Except.error Err.noFuel) :
    pseudo_kmeans_w_vec_from_points f' l es it r =
      pseudo_kmeans_w_vec_from_points f l es it r := by
  rw [pseudo_kmeans_w_vec_from_points] at hne
  simp only [pseudo_kmeans_w_vec_from_points]
  match hch : chooseElem l r with
  | none => rfl
  | some (p1, r1) =>
    rw [hch] at hne
    simp only [] at hne ⊢
    have hne' : choose_second_distinct f p1.1 l r1 ≠
        Except.error Err.noFuel := by
      intro hcon
      rw [hcon] at hne
      exact hne rfl
    rw [choose_second_mono f f' hf _ _ _ hne']

theorem compute_w_vec_mono (f f' : ℕ) (hf : f ≤ f')
    (l : List (NodeID × Bool)) (es : EmbeddingStore) (r : Rng)
    (hne : compute_w_vec_from_points f l es r ≠ Except.error Err.noFuel) :
    compute_w_vec_from_points f' l es r = compute_w_vec_from_points f l es r := by
  rw [compute_w_vec_from_points] at hne
  simp only [compute_w_vec_from_points]
  match hch : chooseElem l r with
  | none => rfl
  | some (p1, r1) =>
    rw [hch] at hne
    simp only [] at hne ⊢
    have hne' : choose_second_distinct f p1.1 l r1 ≠
        Except.error Err.noFuel := by
      intro hcon
      rw [hcon] at hne
      exact hne rfl
    rw [choose_second_mono f f' hf _ _ _ hne']

theorem simple_splits_loop_mono :
    ∀ (trials f f' : ℕ), f ≤ f' →
      ∀ (l : List (NodeID × Bool)) (es : EmbeddingStore) (n ns : ℕ)
        (best : ℕ × Option Hyperplane) (r : Rng),
      simple_splits_loop f l es trials n ns best r ≠ Except.error Err.noFuel →
      simple_splits_loop f' l es trials n ns best r =
        simple_splits_loop f l es trials n ns best r := by
  intro trials
  induction trials with
  | zero => intro f f' _ l es n ns best r _; rfl
  | succ trials ih =>
    intro f f' hf l es n ns best r hne
    rw [simple_splits_loop] at hne
    simp only [simple_splits_loop]
    have hnepk : pseudo_kmeans_w_vec_from_points f l es ns r ≠
        Except.error Err.noFuel := by
      intro hcon
      rw [hcon] at hne
      exact hne rfl
    rw [pseudo_kmeans_mono f f' hf l es ns r hnepk]
    match hpk : pseudo_kmeans_w_vec_from_points f l es ns r with
    | Except.error e => rfl
    | Except.ok (diff, pa, pb, r1) =>
      rw [hpk] at hne
      simp only [] at hne ⊢
      match hca : count_above n ⟨diff, split_bias diff pa pb⟩ l es 0 r1 with
      | Except.error e => rfl
      | Except.ok (s, r2) =>
        rw [hca] at hne
        simp only [] at hne ⊢
        exact ih f f' hf l es n ns _ r2 hne

theorem compute_simple_splits_mono (f f' : ℕ) (hf : f ≤ f')
    (l : List (NodeID × Bool)) (es : EmbeddingStore) (trials ns : ℕ) (r : Rng)
    (hne : compute_simple_splits f l es trials ns r ≠
      Except.error Err.noFuel) :
    compute_simple_splits f' l es trials ns r =
      compute_simple_splits f l es trials ns r := by
  rw [compute_simple_splits] at hne
  simp only [compute_simple_splits]
  have hnel : simple_splits_loop f l es trials (min ns l.length) ns (0, none) r ≠
      Except.error Err.noFuel := by
    intro hcon
    rw [hcon] at hne
    exact hne rfl
  rw [simple_splits_loop_mono trials f f' hf l es _ ns (0, none) r hnel]

theorem compute_normal_rp_mono (f f' : ℕ) (hf : f ≤ f')
    (l : List (NodeID × Bool)) (es : EmbeddingStore) (ns : ℕ) (r : Rng)
    (hne : compute_normal_rp f l es ns r ≠ Except.error Err.noFuel) :
    compute_normal_rp f' l es ns r = compute_normal_rp f l es ns r := by
  rw [compute_normal_rp] at hne
  simp only [compute_normal_rp]
  have hnew : compute_w_vec_from_points f l es r ≠ Except.error Err.noFuel := by
    intro hcon
    rw [hcon] at hne
    exact hne rfl
  rw [compute_w_vec_mono f f' hf l es r hnew]

theorem chooser_mono (cfg : AnnBuildConfig) (f f' : ℕ) (hf : f ≤ f')
    (l : List (NodeID × Bool)) (es : EmbeddingStore) (r : Rng)
    (hne : (if 0 < cfg.test_hp_per_split then
        compute_simple_splits f l es cfg.test_hp_per_split
          cfg.num_sampled_nodes_split_test r
      else compute_normal_rp f l es cfg.num_sampled_nodes_split_test r) ≠
      Except.error Err.noFuel) :
    (if 0 < cfg.test_hp_per_split then
        compute_simple_splits f' l es cfg.test_hp_per_split
          cfg.num_sampled_nodes_split_test r
      else compute_normal_rp f' l es cfg.num_sampled_nodes_split_test r) =
    (if 0 < cfg.test_hp_per_split then
        compute_simple_splits f l es cfg.test_hp_per_split
          cfg.num_sampled_nodes_split_test r
      else compute_normal_rp f l es cfg.num_sampled_nodes_split_test r) := by
  by_cases ht : 0 < cfg.test_hp_per_split
  · rw [if_pos ht] at hne ⊢
    rw [if_pos ht]
    exact compute_simple_splits_mono f f' hf l es _ _ r hne
  · rw [if_neg ht] at hne ⊢
    rw [if_neg ht]
    exact compute_normal_rp_mono f f' hf l es _ r hne

theorem fit_group_mono :
    ∀ (f f' : ℕ), f ≤ f' → ∀ (cfg : AnnBuildConfig) (tt : TreeTable) (d : ℕ)
      (es : EmbeddingStore) (inds : List (NodeID × Bool)) (r : Rng),
      fit_group_ f cfg tt d es inds r ≠ Except.error Err.noFuel →
      fit_group_ f' cfg tt d es inds r = fit_group_ f cfg tt d es inds r := by
  intro f
  induction f with
  | zero => intro f' _ cfg tt d es inds r hne; exact absurd rfl hne
  | succ f ih =>
    intro f' hf cfg tt d es inds r hne
    obtain ⟨f'', rfl⟩ : ∃ f'', f' = f'' + 1 := ⟨f' - 1, by omega⟩
    have hff : f ≤ f'' := by omega
    rw [fit_group_] at hne
    simp only [fit_group_]
    by_cases h1 : inds.length < cfg.max_nodes_per_leaf
    · rw [if_pos h1, if_pos h1]
    · rw [if_neg h1] at hne
      rw [if_neg h1, if_neg h1]
      have hnech : (if 0 < cfg.test_hp_per_split then
          compute_simple_splits f inds es cfg.test_hp_per_split
            cfg.num_sampled_nodes_split_test r
        else compute_normal_rp f inds es cfg.num_sampled_nodes_split_test r) ≠
          Except.error Err.noFuel := by
        intro hcon
        rw [hcon] at hne
        exact hne rfl
      rw [chooser_mono cfg f f'' hff inds es r hnech]
      match hch : (if 0 < cfg.test_hp_per_split then
          compute_simple_splits f inds es cfg.test_hp_per_split
            cfg.num_sampled_nodes_split_test r
        else compute_normal_rp f inds es cfg.num_sampled_nodes_split_test r) with
      | Except.error e => rfl
      | Except.ok (hp, r1) =>
        rw [hch] at hne
        simp only [] at hne ⊢
        by_cases h2 : 0 < (above_slice es hp inds).length ∧
            0 < (below_slice es hp inds).length
        · rw [if_pos h2] at hne
          rw [if_pos h2, if_pos h2]
          have hneab : fit_group_ f cfg tt (d + 1) es (above_slice es hp inds)
              r1 ≠ Except.error Err.noFuel := by
            intro hcon
            rw [hcon] at hne
            exact hne rfl
          rw [ih f'' hff cfg tt (d + 1) es (above_slice es hp inds) r1 hneab]
          match hab : fit_group_ f cfg tt (d + 1) es (above_slice es hp inds)
              r1 with
          | Except.error e => rfl
          | Except.ok (t1, ai, r2) =>
            rw [hab] at hne
            simp only [] at hne ⊢
            have hnebe : fit_group_ f cfg t1 (d + 1) es
                (below_slice es hp inds) r2 ≠ Except.error Err.noFuel := by
              intro hcon
              rw [hcon] at hne
              exact hne rfl
            rw [ih f'' hff cfg t1 (d + 1) es (below_slice es hp inds) r2 hnebe]
        · rw [if_neg h2, if_neg h2]

theorem fit_one_tree_mono (prng : ℕ → ℕ → ℕ) (cfg : AnnBuildConfig)
    (es : EmbeddingStore) (base : List (NodeID × Bool)) (seed idx : ℕ)
    (f f' : ℕ) (hf : f ≤ f')
    (hne : fit_one_tree prng cfg es base seed idx f ≠
      Except.error Err.noFuel) :
    fit_one_tree prng cfg es base seed idx f' =
      fit_one_tree prng cfg es base seed idx f := by
  rw [fit_one_tree] at hne
  simp only [fit_one_tree]
  have hneg : fit_group_ f cfg [] 1 es base ⟨prng (seed + idx), 0⟩ ≠
      Except.error Err.noFuel := by
    intro hcon
    rw [hcon] at hne
    exact hne rfl
  rw [fit_group_mono f f' hf cfg [] 1 es base _ hneg]

-- ------------------------------------------------------------------
-- C2, part 3: every operation preserves the RNG stream
-- ------------------------------------------------------------------

theorem chooseElem_stream {α : Type} {l : List α} {r : Rng} {a : α} {r2 : Rng}
    (h : chooseElem l r = some (a, r2)) : r2 = ⟨r.stream, r.pos + 1⟩ := by
  rw [chooseElem] at h
  match hg : l[r.stream r.pos % l.length]? with
  | some b =>
    rw [Rng.next] at h
    simp only [hg] at h
    cases h
    rfl
  | none =>
    rw [Rng.next] at h
    simp only [hg] at h
    cases h

theorem choose_second_stream :
    ∀ (f : ℕ) (x : NodeID) (l : List (NodeID × Bool)) (r : Rng) (v : NodeID)
      (r' : Rng), choose_second_distinct f x l r = Except.ok (v, r') →
      r'.stream = r.stream := by
  intro f
  induction f with
  | zero => intro x l r v r' h; cases h
  | succ f ih =>
    intro x l r v r' h
    rw [choose_second_distinct] at h
    match hch : chooseElem l r with
    | none => rw [hch] at h; cases h
    | some (p, r2) =>
      rw [hch] at h
      simp only [] at h
      have hr2 := chooseElem_stream hch
      by_cases hp : p.1 = x
      · rw [if_pos hp] at h
        rw [ih x l r2 v r' h, hr2]
      · rw [if_neg hp] at h
        cases h
        rw [hr2]

theorem pseudo_kmeans_loop_stream :
    ∀ (it : ℕ) (l : List (NodeID × Bool)) (es : EmbeddingStore)
      (pa pb : List ℚ) (ac bc : ℕ) (r : Rng) (pa' pb' : List ℚ) (r' : Rng),
      pseudo_kmeans_loop l es it pa pb ac bc r = Except.ok (pa', pb', r') →
      r'.stream = r.stream := by
  intro it
  induction it with
  | zero =>
    intro l es pa pb ac bc r pa' pb' r' h
    cases h
    rfl
  | succ it ih =>
    intro l es pa pb ac bc r pa' pb' r' h
    rw [pseudo_kmeans_loop] at h
    match hch : chooseElem l r with
    | none => rw [hch] at h; cases h
    | some (p, r2) =>
      rw [hch] at h
      simp only [] at h
      have hr2 := chooseElem_stream hch
      by_cases hd : (bc : ℚ) * es.dist pb (es.emb p.1) <
          (ac : ℚ) * es.dist pa (es.emb p.1)
      · rw [if_pos hd] at h
        rw [ih _ _ _ _ _ _ _ _ _ _ h, hr2]
      · rw [if_neg hd] at h
        rw [ih _ _ _ _ _ _ _ _ _ _ h, hr2]

theorem pseudo_kmeans_stream (f : ℕ) (l : List (NodeID × Bool))
    (es : EmbeddingStore) (it : ℕ) (r : Rng) (diff pa pb : List ℚ) (r' : Rng)
    (h : pseudo_kmeans_w_vec_from_points f l es it r =
      Except.ok (diff, pa, pb, r')) : r'.stream = r.stream := by
  rw [pseudo_kmeans_w_vec_from_points] at h
  match hch : chooseElem l r with
  | none => rw [hch] at h; cases h
  | some (p1, r1) =>
    rw [hch] at h
    simp only [] at h
    have hr1 := chooseElem_stream hch
    match hcs : choose_second_distinct f p1.1 l r1 with
    | Except.error e => rw [hcs] at h; cases h
    | Except.ok (idx2, r2) =>
      rw [hcs] at h
      simp only [] at h
      have hr2 := choose_second_stream f p1.1 l r1 idx2 r2 hcs
      match hlp : pseudo_kmeans_loop l es it (es.emb p1.1) (es.emb idx2)
          1 1 r2 with
      | Except.error e => rw [hlp] at h; cases h
      | Except.ok (pa2, pb2, r3) =>
        rw [hlp] at h
        simp only [] at h
        cases h
        rw [pseudo_kmeans_loop_stream it l es _ _ _ _ _ _ _ _ hlp, hr2, hr1]

theorem count_above_stream :
    ∀ (n : ℕ) (hp : Hyperplane) (l : List (NodeID × Bool))
      (es : EmbeddingStore) (s0 : ℕ) (r : Rng) (s : ℕ) (r' : Rng),
      count_above n hp l es s0 r = Except.ok (s, r') →
      r'.stream = r.stream := by
  intro n
  induction n with
  | zero => intro hp l es s0 r s r' h; cases h; rfl
  | succ n ih =>
    intro hp l es s0 r s r' h
    rw [count_above] at h
    match hch : chooseElem l r with
    | none => rw [hch] at h; cases h
    | some (p, r2) =>
      rw [hch] at h
      simp only [] at h
      have hr2 := chooseElem_stream hch
      by_cases ha : hp.point_is_above (es.emb p.1)
      · rw [if_pos ha] at h
        rw [ih _ _ _ _ _ _ _ h, hr2]
      · rw [if_neg ha] at h
        rw [ih _ _ _ _ _ _ _ h, hr2]

theorem simple_splits_loop_stream :
    ∀ (trials f : ℕ) (l : List (NodeID × Bool)) (es : EmbeddingStore)
      (n ns : ℕ) (best : ℕ × Option Hyperplane) (r : Rng)
      (sc : ℕ) (hpo : Option Hyperplane) (r' : Rng),
      simple_splits_loop f l es trials n ns best r = Except.ok (sc, hpo, r') →
      r'.stream = r.stream := by
  intro trials
  induction trials with
  | zero => intro f l es n ns best r sc hpo r' h; cases h; rfl
  | succ trials ih =>
    intro f l es n ns best r sc hpo r' h
    rw [simple_splits_loop] at h
    match hpk : pseudo_kmeans_w_vec_from_points f l es ns r with
    | Except.error e => rw [hpk] at h; cases h
    | Except.ok (diff, pa, pb, r1) =>
      rw [hpk] at h
      simp only [] at h
      have hr1 := pseudo_kmeans_stream f l es ns r diff pa pb r1 hpk
      match hca : count_above n ⟨diff, split_bias diff pa pb⟩ l es 0 r1 with
      | Except.error e => rw [hca] at h; cases h
      | Except.ok (s, r2) =>
        rw [hca] at h
        simp only [] at h
        have hr2 := count_above_stream n _ l es 0 r1 s r2 hca
        rw [ih f l es n ns _ r2 sc hpo r' h, hr2, hr1]

theorem compute_simple_splits_stream (f : ℕ) (l : List (NodeID × Bool))
    (es : EmbeddingStore) (trials ns : ℕ) (r : Rng) (hp : Hyperplane)
    (r' : Rng)
    (h : compute_simple_splits f l es trials ns r = Except.ok (hp, r')) :
    r'.stream = r.stream := by
  rw [compute_simple_splits] at h
  match hl : simple_splits_loop f l es trials (min ns l.length) ns (0, none) r with
  | Except.error e => rw [hl] at h; cases h
  | Except.ok (sc, none, r2) => rw [hl] at h; cases h
  | Except.ok (sc, some hp2, r2) =>
    rw [hl] at h
    cases h
    exact simple_splits_loop_stream trials f l es _ ns (0, none) r sc _ r' hl

theorem compute_w_vec_stream (f : ℕ) (l : List (NodeID × Bool))
    (es : EmbeddingStore) (r : Rng) (diff pa pb : List ℚ) (r' : Rng)
    (h : compute_w_vec_from_points f l es r = Except.ok (diff, pa, pb, r')) :
    r'.stream = r.stream := by
  rw [compute_w_vec_from_points] at h
  match hch : chooseElem l r with
  | none => rw [hch] at h; cases h
  | some (p1, r1) =>
    rw [hch] at h
    simp only [] at h
    have hr1 := chooseElem_stream hch
    match hcs : choose_second_distinct f p1.1 l r1 with
    | Except.error e => rw [hcs] at h; cases h
    | Except.ok (idx2, r2) =>
      rw [hcs] at h
      simp only [] at h
      cases h
      rw [choose_second_stream f p1.1 l r1 idx2 _ hcs, hr1]

theorem sample_projections_stream :
    ∀ (n : ℕ) (l : List (NodeID × Bool)) (es : EmbeddingStore)
      (vec : List ℚ) (r : Rng) (rps : List ℚ) (r' : Rng),
      sample_projections n l es vec r = Except.ok (rps, r') →
      r'.stream = r.stream := by
  intro n
  induction n with
  | zero => intro l es vec r rps r' h; cases h; rfl
  | succ n ih =>
    intro l es vec r rps r' h
    rw [sample_projections] at h
    match hch : chooseElem l r with
    | none => rw [hch] at h; cases h
    | some (p, r2) =>
      rw [hch] at h
      simp only [] at h
      have hr2 := chooseElem_stream hch
      match hsp : sample_projections n l es vec r2 with
      | Except.error e => rw [hsp] at h; cases h
      | Except.ok (rest, r3) =>
        rw [hsp] at h
        simp only [] at h
        cases h
        rw [ih l es vec r2 rest _ hsp, hr2]

theorem compute_normal_rp_stream (f : ℕ) (l : List (NodeID × Bool))
    (es : EmbeddingStore) (ns : ℕ) (r : Rng) (hp : Hyperplane) (r' : Rng)
    (h : compute_normal_rp f l es ns r = Except.ok (hp, r')) :
    r'.stream = r.stream := by
  rw [compute_normal_rp] at h
  match hw : compute_w_vec_from_points f l es r with
  | Except.error e => rw [hw] at h; cases h
  | Except.ok (vec, pa, pb, r1) =>
    rw [hw] at h
    simp only [] at h
    have hr1 := compute_w_vec_stream f l es r vec pa pb r1 hw
    match hsp : sample_projections (min ns l.length) l es vec r1 with
    | Except.error e => rw [hsp] at h; cases h
    | Except.ok (rps, r2) =>
      rw [hsp] at h
      simp only [] at h
      have hr2 := sample_projections_stream _ l es vec r1 rps r2 hsp
      match hmed : median (List.insertionSort (fun a b : ℚ => a ≤ b) rps) with
      | Except.error e => rw [hmed] at h; cases h
      | Except.ok m =>
        rw [hmed] at h
        cases h
        rw [hr2, hr1]

theorem chooser_stream (cfg : AnnBuildConfig) (f : ℕ)
    (l : List (NodeID × Bool)) (es : EmbeddingStore) (r : Rng)
    (hp : Hyperplane) (r' : Rng)
    (h : (if 0 < cfg.test_hp_per_split then
        compute_simple_splits f l es cfg.test_hp_per_split
          cfg.num_sampled_nodes_split_test r
      else compute_normal_rp f l es cfg.num_sampled_nodes_split_test r) =
      Except.ok (hp, r')) : r'.stream = r.stream := by
  by_cases ht : 0 < cfg.test_hp_per_split
  · rw [if_pos ht] at h
    exact compute_simple_splits_stream f l es _ _ r hp r' h
  · rw [if_neg ht] at h
    exact compute_normal_rp_stream f l es _ r hp r' h

theorem fit_group_stream :
    ∀ (f : ℕ) (cfg : AnnBuildConfig) (tt : TreeTable) (d : ℕ)
      (es : EmbeddingStore) (inds : List (NodeID × Bool)) (r : Rng)
      (tt' : TreeTable) (idx : ℕ) (r' : Rng),
      fit_group_ f cfg tt d es inds r = Except.ok (tt', idx, r') →
      r'.stream = r.stream := by
  intro f
  induction f with
  | zero => intro cfg tt d es inds r tt' idx r' h; cases h
  | succ f ih =>
    intro cfg tt d es inds r tt' idx r' h
    rw [fit_group_] at h
    by_cases h1 : inds.length < cfg.max_nodes_per_leaf
    · rw [if_pos h1] at h
      cases h
      rfl
    · rw [if_neg h1] at h
      match hch : (if 0 < cfg.test_hp_per_split then
          compute_simple_splits f inds es cfg.test_hp_per_split
            cfg.num_sampled_nodes_split_test r
        else compute_normal_rp f inds es cfg.num_sampled_nodes_split_test r) with
      | Except.error e => rw [hch] at h; cases h
      | Except.ok (hp, r1) =>
        rw [hch] at h
        simp only [] at h
        have hr1 := chooser_stream cfg f inds es r hp r1 hch
        by_cases h2 : 0 < (above_slice es hp inds).length ∧
            0 < (below_slice es hp inds).length
        · rw [if_pos h2] at h
          match hab : fit_group_ f cfg tt (d + 1) es (above_slice es hp inds)
              r1 with
          | Except.error e => rw [hab] at h; cases h
          | Except.ok (t1, ai, r2) =>
            rw [hab] at h
            simp only [] at h
            have hr2 := ih cfg tt (d + 1) es _ r1 t1 ai r2 hab
            match hbe : fit_group_ f cfg t1 (d + 1) es
                (below_slice es hp inds) r2 with
            | Except.error e => rw [hbe] at h; cases h
            | Except.ok (t2, bi, r3) =>
              rw [hbe] at h
              simp only [] at h
              cases h
              rw [ih cfg t1 (d + 1) es _ r2 t2 bi _ hbe, hr2, hr1]
        · rw [if_neg h2] at h
          cases h
          rw [hr1]

-- ------------------------------------------------------------------
-- C2, part 4: sufficient fuel exists under a fair stream
-- ------------------------------------------------------------------

theorem chooseElem_eq_get {α : Type} (l : List α) (g : ℕ → ℕ) (pos : ℕ)
    (hlt : g pos % l.length < l.length) :
    chooseElem l ⟨g, pos⟩ =
      some (l.get ⟨g pos % l.length, hlt⟩, ⟨g, pos + 1⟩) := by
  rw [chooseElem, Rng.next]
  simp only []
  rw [List.getElem?_eq_getElem hlt]
  rfl

theorem chooseElem_ne_nil {α : Type} (l : List α) (r : Rng) (hne : l ≠ []) :
    ∃ a, a ∈ l ∧ chooseElem l r = some (a, ⟨r.stream, r.pos + 1⟩) := by
  have hlen : 0 < l.length := List.length_pos.mpr hne
  have hlt : r.stream r.pos % l.length < l.length := Nat.mod_lt _ hlen
  refine ⟨l.get ⟨r.stream r.pos % l.length, hlt⟩, l.get_mem _ _, ?_⟩
  rw [chooseElem, Rng.next]
  simp only []
  rw [List.getElem?_eq_getElem hlt]
  rfl

theorem choose_second_hit :
    ∀ (d : ℕ) (x : NodeID) (l : List (NodeID × Bool)) (g : ℕ → ℕ) (pos : ℕ),
      l ≠ [] →
      (∃ hq : g (pos + d) % l.length < l.length,
        (l.get ⟨g (pos + d) % l.length, hq⟩).1 ≠ x) →
      choose_second_distinct (d + 1) x l ⟨g, pos⟩ ≠
        Except.error Err.noFuel := by
  intro d
  induction d with
  | zero =>
    intro x l g pos hne hhit
    obtain ⟨hq, hx⟩ := hhit
    rw [choose_second_distinct, chooseElem_eq_get l g pos hq]
    simp only []
    rw [if_neg (show (l.get ⟨g pos % l.length, hq⟩).1 ≠ x from hx)]
    simp
  | succ d ih =>
    intro x l g pos hne hhit
    have hlen : 0 < l.length := List.length_pos.mpr hne
    have hlt0 : g pos % l.length < l.length := Nat.mod_lt _ hlen
    rw [choose_second_distinct, chooseElem_eq_get l g pos hlt0]
    simp only []
    by_cases hx0 : (l.get ⟨g pos % l.length, hlt0⟩).1 = x
    · rw [if_pos hx0]
      apply ih x l g (pos + 1) hne
      rw [show pos + 1 + d = pos + (d + 1) by omega]
      exact hhit
    · rw [if_neg hx0]
      simp

theorem choose_second_succeeds (g : ℕ → ℕ) (hg : fair_stream g)
    (x : NodeID) (l : List (NodeID × Bool)) (hne : l ≠ [])
    (hex : ∃ q ∈ l, q.1 ≠ x) (pos : ℕ) :
    ∃ f, choose_second_distinct f x l ⟨g, pos⟩ ≠
      Except.error Err.noFuel := by
  obtain ⟨q, hq, hqx⟩ := hex
  obtain ⟨j, hjq⟩ := List.mem_iff_get.mp hq
  obtain ⟨p, hpos, hmod⟩ := hg pos l.length j.1 j.2
  refine ⟨(p - pos) + 1, choose_second_hit (p - pos) x l g pos hne ?_⟩
  rw [show pos + (p - pos) = p by omega, hmod]
  exact ⟨j.2, by rw [Fin.eta, hjq]; exact hqx⟩

theorem pseudo_kmeans_loop_ok :
    ∀ (it : ℕ) (l : List (NodeID × Bool)) (es : EmbeddingStore)
      (pa pb : List ℚ) (ac bc : ℕ) (r : Rng), l ≠ [] →
      ∃ pa' pb' r', pseudo_kmeans_loop l es it pa pb ac bc r =
        Except.ok (pa', pb', r') := by
  intro it
  induction it with
  | zero => intro l es pa pb ac bc r _; exact ⟨pa, pb, r, rfl⟩
  | succ it ih =>
    intro l es pa pb ac bc r hne
    obtain ⟨a, _, hch⟩ := chooseElem_ne_nil l r hne
    rw [pseudo_kmeans_loop, hch]
    simp only []
    by_cases hd : (bc : ℚ) * es.dist pb (es.emb a.1) <
        (ac : ℚ) * es.dist pa (es.emb a.1)
    · rw [if_pos hd]
      exact ih l es _ _ _ _ _ hne
    · rw [if_neg hd]
      exact ih l es _ _ _ _ _ hne

theorem count_above_ok :
    ∀ (n : ℕ) (hp : Hyperplane) (l : List (NodeID × Bool))
      (es : EmbeddingStore) (s0 : ℕ) (r : Rng), l ≠ [] →
      ∃ s r', count_above n hp l es s0 r = Except.ok (s, r') := by
  intro n
  induction n with
  | zero => intro hp l es s0 r _; exact ⟨s0, r, rfl⟩
  | succ n ih =>
    intro hp l es s0 r hne
    obtain ⟨a, _, hch⟩ := chooseElem_ne_nil l r hne
    rw [count_above, hch]
    simp only []
    by_cases ha : hp.point_is_above (es.emb a.1)
    · rw [if_pos ha]
      exact ih hp l es _ _ hne
    · rw [if_neg ha]
      exact ih hp l es _ _ hne

theorem sample_projections_ok :
    ∀ (n : ℕ) (l : List (NodeID × Bool)) (es : EmbeddingStore)
      (vec : List ℚ) (r : Rng), l ≠ [] →
      ∃ rps r', sample_projections n l es vec r = Except.ok (rps, r') := by
  intro n
  induction n with
  | zero => intro l es vec r _; exact ⟨[], r, rfl⟩
  | succ n ih =>
    intro l es vec r hne
    obtain ⟨a, _, hch⟩ := chooseElem_ne_nil l r hne
    rw [sample_projections, hch]
    simp only []
    obtain ⟨rest, r2, hrec⟩ := ih l es vec _ hne
    rw [hrec]
    exact ⟨_, r2, rfl⟩

theorem exists_ne_of_two_distinct {l : List (NodeID × Bool)}
    (h : ∃ p ∈ l, ∃ p' ∈ l, p.1 ≠ p'.1) (x : NodeID) :
    ∃ q ∈ l, q.1 ≠ x := by
  obtain ⟨p, hp, p', hp', hne⟩ := h
  by_cases hx : p.1 = x
  · exact ⟨p', hp', fun hc => hne (hx.trans hc.symm)⟩
  · exact ⟨p, hp, hx⟩

theorem two_distinct_of_nodup {l : List (NodeID × Bool)}
    (hlen : 2 ≤ l.length) (hnodup : (l.map (fun v => v.1)).Nodup) :
    ∃ p ∈ l, ∃ p' ∈ l, p.1 ≠ p'.1 := by
  match l with
  | [] => simp at hlen
  | [a] => simp at hlen
  | a :: b :: t =>
    refine ⟨a, by simp, b, by simp, ?_⟩
    simp only [List.map_cons, List.nodup_cons, List.mem_cons,
      List.mem_map] at hnodup
    intro hc
    exact hnodup.1 (Or.inl hc)

theorem pseudo_kmeans_succeeds (g : ℕ → ℕ) (hg : fair_stream g)
    (l : List (NodeID × Bool)) (es : EmbeddingStore) (it : ℕ)
    (hne : l ≠ []) (h2 : ∃ p ∈ l, ∃ p' ∈ l, p.1 ≠ p'.1) (pos : ℕ) :
    ∃ f, pseudo_kmeans_w_vec_from_points f l es it ⟨g, pos⟩ ≠
      Except.error Err.noFuel := by
  obtain ⟨p1, hp1, hch⟩ := chooseElem_ne_nil l ⟨g, pos⟩ hne
  obtain ⟨f, hcs⟩ := choose_second_succeeds g hg p1.1 l hne
    (exists_ne_of_two_distinct h2 p1.1) (pos + 1)
  refine ⟨f, ?_⟩
  rw [pseudo_kmeans_w_vec_from_points, hch]
  simp only []
  match hcsr : choose_second_distinct f p1.1 l ⟨g, pos + 1⟩ with
  | Except.error e =>
    rw [hcsr] at hcs
    show (Except.error e : Res (List ℚ × List ℚ × List ℚ × Rng)) ≠
      Except.error Err.noFuel
    intro hcon
    cases hcon
    exact hcs rfl
  | Except.ok (idx2, r2) =>
    simp only []
    obtain ⟨pa', pb', r3, hlp⟩ :=
      pseudo_kmeans_loop_ok it l es (es.emb p1.1) (es.emb idx2) 1 1 r2 hne
    rw [hlp]
    simp

theorem rng_eta_of_stream {r : Rng} {g : ℕ → ℕ} (h : r.stream = g) :
    r = ⟨g, r.pos⟩ := by
  cases r
  cases h
  rfl

theorem simple_splits_loop_succeeds (g : ℕ → ℕ) (hg : fair_stream g)
    (l : List (NodeID × Bool)) (es : EmbeddingStore) (n ns : ℕ)
    (hne : l ≠ []) (h2 : ∃ p ∈ l, ∃ p' ∈ l, p.1 ≠ p'.1) :
    ∀ (trials : ℕ) (best : ℕ × Option Hyperplane) (pos : ℕ),
      ∃ f, simple_splits_loop f l es trials n ns best ⟨g, pos⟩ ≠
        Except.error Err.noFuel := by
  intro trials
  induction trials with
  | zero =>
    intro best pos
    exact ⟨0, by rw [simple_splits_loop]; simp⟩
  | succ trials ih =>
    intro best pos
    obtain ⟨f1, hpk1⟩ := pseudo_kmeans_succeeds g hg l es ns hne h2 pos
    match hpkr : pseudo_kmeans_w_vec_from_points f1 l es ns ⟨g, pos⟩ with
    | Except.error e =>
      refine ⟨f1, ?_⟩
      rw [simple_splits_loop, hpkr]
      rw [hpkr] at hpk1
      show (Except.error e : Res (ℕ × Option Hyperplane × Rng)) ≠
        Except.error Err.noFuel
      intro hcon
      cases hcon
      exact hpk1 rfl
    | Except.ok (diff, pa, pb, r1) =>
      have hr1 : r1.stream = g :=
        pseudo_kmeans_stream f1 l es ns ⟨g, pos⟩ diff pa pb r1 hpkr
      obtain ⟨s, r2, hca⟩ :=
        count_above_ok n ⟨diff, split_bias diff pa pb⟩ l es 0 r1 hne
      have hr2 : r2.stream = g :=
        (count_above_stream n _ l es 0 r1 s r2 hca).trans hr1
      obtain ⟨f2, hloop2⟩ := ih
        (if max s (n - s) - min s (n - s) < best.1 ∨ best.2 = none
          then (max s (n - s) - min s (n - s),
            some ⟨diff, split_bias diff pa pb⟩)
          else best) r2.pos
      refine ⟨max f1 f2, ?_⟩
      rw [simple_splits_loop,
        pseudo_kmeans_mono f1 (max f1 f2) (Nat.le_max_left f1 f2) l es ns
          ⟨g, pos⟩ hpk1, hpkr]
      simp only []
      rw [hca]
      simp only []
      rw [rng_eta_of_stream hr2]
      rw [simple_splits_loop_mono trials f2 (max f1 f2)
        (Nat.le_max_right f1 f2) l es n ns _ _ hloop2]
      exact hloop2

theorem compute_simple_splits_succeeds (g : ℕ → ℕ) (hg : fair_stream g)
    (l : List (NodeID × Bool)) (es : EmbeddingStore) (trials ns : ℕ)
    (hne : l ≠ []) (h2 : ∃ p ∈ l, ∃ p' ∈ l, p.1 ≠ p'.1) (pos : ℕ) :
    ∃ f, compute_simple_splits f l es trials ns ⟨g, pos⟩ ≠
      Except.error Err.noFuel := by
  obtain ⟨f, hloop⟩ := simple_splits_loop_succeeds g hg l es
    (min ns l.length) ns hne h2 trials (0, none) pos
  refine ⟨f, ?_⟩
  rw [compute_simple_splits]
  match hl : simple_splits_loop f l es trials (min ns l.length) ns (0, none)
      ⟨g, pos⟩ with
  | Except.error e =>
    rw [hl] at hloop
    show (Except.error e : Res (Hyperplane × Rng)) ≠ Except.error Err.noFuel
    intro hcon
    cases hcon
    exact hloop rfl
  | Except.ok (sc, none, r2) => simp
  | Except.ok (sc, some hp2, r2) => simp

theorem compute_w_vec_succeeds (g : ℕ → ℕ) (hg : fair_stream g)
    (l : List (NodeID × Bool)) (es : EmbeddingStore)
    (hne : l ≠ []) (h2 : ∃ p ∈ l, ∃ p' ∈ l, p.1 ≠ p'.1) (pos : ℕ) :
    ∃ f, compute_w_vec_from_points f l es ⟨g, pos⟩ ≠
      Except.error Err.noFuel := by
  obtain ⟨p1, hp1, hch⟩ := chooseElem_ne_nil l ⟨g, pos⟩ hne
  obtain ⟨f, hcs⟩ := choose_second_succeeds g hg p1.1 l hne
    (exists_ne_of_two_distinct h2 p1.1) (pos + 1)
  refine ⟨f, ?_⟩
  rw [compute_w_vec_from_points, hch]
  simp only []
  match hcsr : choose_second_distinct f p1.1 l ⟨g, pos + 1⟩ with
  | Except.error e =>
    rw [hcsr] at hcs
    show (Except.error e : Res (List ℚ × List ℚ × List ℚ × Rng)) ≠
      Except.error Err.noFuel
    intro hcon
    cases hcon
    exact hcs rfl
  | Except.ok (idx2, r2) => simp

theorem compute_normal_rp_succeeds (g : ℕ → ℕ) (hg : fair_stream g)
    (l : List (NodeID × Bool)) (es : EmbeddingStore) (ns : ℕ)
    (hne : l ≠ []) (h2 : ∃ p ∈ l, ∃ p' ∈ l, p.1 ≠ p'.1) (pos : ℕ) :
    ∃ f, compute_normal_rp f l es ns ⟨g, pos⟩ ≠
      Except.error Err.noFuel := by
  obtain ⟨f, hw⟩ := compute_w_vec_succeeds g hg l es hne h2 pos
  refine ⟨f, ?_⟩
  rw [compute_normal_rp]
  match hwr : compute_w_vec_from_points f l es ⟨g, pos⟩ with
  | Except.error e =>
    rw [hwr] at hw
    show (Except.error e : Res (Hyperplane × Rng)) ≠ Except.error Err.noFuel
    intro hcon
    cases hcon
    exact hw rfl
  | Except.ok (vec, pa, pb, r1) =>
    simp only []
    obtain ⟨rps, r2, hsp⟩ :=
      sample_projections_ok (min ns l.length) l es vec r1 hne
    rw [hsp]
    simp only []
    match hmed : median (List.insertionSort (fun a b : ℚ => a ≤ b) rps) with
    | Except.error e =>
      match hmede : e with
      | Err.fatal => simp
      | Err.noFuel =>
        rw [median] at hmed
        by_cases hz : (List.insertionSort (fun a b : ℚ => a ≤ b) rps).length = 0
        · rw [if_pos hz] at hmed
          cases hmed
        · rw [if_neg hz] at hmed
          by_cases hodd : (List.insertionSort (fun a b : ℚ => a ≤ b) rps).length % 2 = 1
          · rw [if_pos hodd] at hmed; cases hmed
          · rw [if_neg hodd] at hmed; cases hmed
    | Except.ok m => simp

theorem chooser_succeeds (cfg : AnnBuildConfig) (g : ℕ → ℕ)
    (hg : fair_stream g) (l : List (NodeID × Bool)) (es : EmbeddingStore)
    (hne : l ≠ []) (h2 : ∃ p ∈ l, ∃ p' ∈ l, p.1 ≠ p'.1) (pos : ℕ) :
    ∃ f, (if 0 < cfg.test_hp_per_split then
        compute_simple_splits f l es cfg.test_hp_per_split
          cfg.num_sampled_nodes_split_test ⟨g, pos⟩
      else compute_normal_rp f l es cfg.num_sampled_nodes_split_test
        ⟨g, pos⟩) ≠ Except.error Err.noFuel := by
  by_cases ht : 0 < cfg.test_hp_per_split
  · obtain ⟨f, h⟩ := compute_simple_splits_succeeds g hg l es
      cfg.test_hp_per_split cfg.num_sampled_nodes_split_test hne h2 pos
    exact ⟨f, by rw [if_pos ht]; exact h⟩
  · obtain ⟨f, h⟩ := compute_normal_rp_succeeds g hg l es
      cfg.num_sampled_nodes_split_test hne h2 pos
    exact ⟨f, by rw [if_neg ht]; exact h⟩

-- ------------------------------------------------------------------
-- C2, part 5: termination of the builder
-- ------------------------------------------------------------------

theorem sorted_labeled_length (es : EmbeddingStore) (hp : Hyperplane)
    (inds : List (NodeID × Bool)) :
    (sort_binary (labeled_slice es hp inds)).length = inds.length := by
  rw [(sort_binary_perm _).length_eq]
  simp [labeled_slice]

theorem above_below_length (es : EmbeddingStore) (hp : Hyperplane)
    (inds : List (NodeID × Bool)) :
    (above_slice es hp inds).length + (below_slice es hp inds).length =
      inds.length := by
  rw [above_slice, below_slice, List.length_drop, List.length_take,
    sorted_labeled_length]
  omega

theorem sorted_ids_nodup (es : EmbeddingStore) (hp : Hyperplane)
    (inds : List (NodeID × Bool))
    (h : (inds.map (fun v => v.1)).Nodup) :
    ((sort_binary (labeled_slice es hp inds)).map (fun v => v.1)).Nodup := by
  have hperm : List.Perm
      ((sort_binary (labeled_slice es hp inds)).map (fun v => v.1))
      (inds.map (fun v => v.1)) := by
    rw [← labeled_slice_ids es hp inds]
    exact (sort_binary_perm _).map _
  exact hperm.nodup_iff.mpr h

theorem above_slice_nodup (es : EmbeddingStore) (hp : Hyperplane)
    (inds : List (NodeID × Bool))
    (h : (inds.map (fun v => v.1)).Nodup) :
    ((above_slice es hp inds).map (fun v => v.1)).Nodup := by
  rw [above_slice, List.map_drop]
  exact (sorted_ids_nodup es hp inds h).sublist (List.drop_sublist _ _)

theorem below_slice_nodup (es : EmbeddingStore) (hp : Hyperplane)
    (inds : List (NodeID × Bool))
    (h : (inds.map (fun v => v.1)).Nodup) :
    ((below_slice es hp inds).map (fun v => v.1)).Nodup := by
  rw [below_slice, List.map_take]
  exact (sorted_ids_nodup es hp inds h).sublist (List.take_sublist _ _)

theorem fit_group_terminates_aux (cfg : AnnBuildConfig)
    (hm : 2 ≤ cfg.max_nodes_per_leaf) (es : EmbeddingStore) (g : ℕ → ℕ)
    (hg : fair_stream g) :
    ∀ (n : ℕ) (inds : List (NodeID × Bool)), inds.length ≤ n →
      (inds.map (fun v => v.1)).Nodup →
      ∀ (tt : TreeTable) (d pos : ℕ),
        ∃ f, fit_group_ f cfg tt d es inds ⟨g, pos⟩ ≠
          Except.error Err.noFuel := by
  intro n
  induction n with
  | zero =>
    intro inds hlen hnodup tt d pos
    exact ⟨1, by rw [fit_group_, if_pos (by omega)]; simp⟩
  | succ n ih =>
    intro inds hlen hnodup tt d pos
    by_cases h1 : inds.length < cfg.max_nodes_per_leaf
    · exact ⟨1, by rw [fit_group_, if_pos h1]; simp⟩
    · have hlen2 : 2 ≤ inds.length := by omega
      have hne : inds ≠ [] := by
        intro hc
        rw [hc] at hlen2
        simp at hlen2
      have h2d := two_distinct_of_nodup hlen2 hnodup
      obtain ⟨f1, hch1⟩ := chooser_succeeds cfg g hg inds es hne h2d pos
      match hchr : (if 0 < cfg.test_hp_per_split then
          compute_simple_splits f1 inds es cfg.test_hp_per_split
            cfg.num_sampled_nodes_split_test ⟨g, pos⟩
        else compute_normal_rp f1 inds es cfg.num_sampled_nodes_split_test
          ⟨g, pos⟩) with
      | Except.error e =>
        refine ⟨f1 + 1, ?_⟩
        rw [fit_group_, if_neg h1, hchr]
        rw [hchr] at hch1
        show (Except.error e : Res (TreeTable × TreeIndex × Rng)) ≠
          Except.error Err.noFuel
        intro hcon
        cases hcon
        exact hch1 rfl
      | Except.ok (hp, r1) =>
        have hr1 : r1.stream = g :=
          chooser_stream cfg f1 inds es ⟨g, pos⟩ hp r1 hchr
        by_cases hsp : 0 < (above_slice es hp inds).length ∧
            0 < (below_slice es hp inds).length
        · have habl : (above_slice es hp inds).length ≤ n := by
            have := above_below_length es hp inds
            omega
          have hbel : (below_slice es hp inds).length ≤ n := by
            have := above_below_length es hp inds
            omega
          obtain ⟨f2, hab2⟩ := ih (above_slice es hp inds) habl
            (above_slice_nodup es hp inds hnodup) tt (d + 1) r1.pos
          rw [← rng_eta_of_stream hr1] at hab2
          match habr : fit_group_ f2 cfg tt (d + 1) es
              (above_slice es hp inds) r1 with
          | Except.error e =>
            refine ⟨max f1 f2 + 1, ?_⟩
            rw [fit_group_, if_neg h1,
              chooser_mono cfg f1 (max f1 f2) (Nat.le_max_left f1 f2) inds es
                ⟨g, pos⟩ hch1, hchr]
            simp only []
            rw [if_pos hsp,
              fit_group_mono f2 (max f1 f2) (Nat.le_max_right f1 f2) cfg tt
                (d + 1) es _ r1 hab2, habr]
            rw [habr] at hab2
            show (Except.error e : Res (TreeTable × TreeIndex × Rng)) ≠
              Except.error Err.noFuel
            intro hcon
            cases hcon
            exact hab2 rfl
          | Except.ok (t1, ai, r2) =>
            have hr2 : r2.stream = g :=
              (fit_group_stream f2 cfg tt (d + 1) es _ r1 t1 ai r2 habr).trans
                hr1
            obtain ⟨f3, hbe3⟩ := ih (below_slice es hp inds) hbel
              (below_slice_nodup es hp inds hnodup) t1 (d + 1) r2.pos
            rw [← rng_eta_of_stream hr2] at hbe3
            refine ⟨max f1 (max f2 f3) + 1, ?_⟩
            rw [fit_group_, if_neg h1,
              chooser_mono cfg f1 (max f1 (max f2 f3))
                (Nat.le_max_left f1 (max f2 f3)) inds es ⟨g, pos⟩ hch1, hchr]
            simp only []
            rw [if_pos hsp,
              fit_group_mono f2 (max f1 (max f2 f3))
                (Nat.le_trans (Nat.le_max_left f2 f3)
                  (Nat.le_max_right f1 (max f2 f3))) cfg tt (d + 1) es _ r1
                hab2, habr]
            simp only []
            rw [fit_group_mono f3 (max f1 (max f2 f3))
              (Nat.le_trans (Nat.le_max_right f2 f3)
                (Nat.le_max_right f1 (max f2 f3))) cfg t1 (d + 1) es _ r2
              hbe3]
            match hber : fit_group_ f3 cfg t1 (d + 1) es
                (below_slice es hp inds) r2 with
            | Except.error e =>
              rw [hber] at hbe3
              show (Except.error e : Res (TreeTable × TreeIndex × Rng)) ≠
                Except.error Err.noFuel
              intro hcon
              cases hcon
              exact hbe3 rfl
            | Except.ok (t2, bi, r3) => simp
        · refine ⟨f1 + 1, ?_⟩
          rw [fit_group_, if_neg h1, hchr]
          simp only []
          rw [if_neg hsp]
          simp

theorem mapRes_ne_noFuel {α β : Type} (f : α → Res β) (l : List α)
    (h : ∀ x ∈ l, f x ≠ Except.error Err.noFuel) :
    mapRes f l ≠ Except.error Err.noFuel := by
  induction l with
  | nil => simp [mapRes]
  | cons x xs ih =>
    rw [mapRes]
    match hf : f x with
    | Except.error e =>
      have hx := h x (List.mem_cons_self x xs)
      rw [hf] at hx
      show (Except.error e : Res (List β)) ≠ Except.error Err.noFuel
      intro hcon
      cases hcon
      exact hx rfl
    | Except.ok y =>
      match hm : mapRes f xs with
      | Except.error e =>
        have hxs := ih (fun z hz => h z (List.mem_cons_of_mem x hz))
        rw [hm] at hxs
        show (Except.error e : Res (List β)) ≠ Except.error Err.noFuel
        intro hcon
        cases hcon
        exact hxs rfl
      | Except.ok ys => simp

theorem fit_one_tree_terminates (prng : ℕ → ℕ → ℕ) (cfg : AnnBuildConfig)
    (hm : 2 ≤ cfg.max_nodes_per_leaf) (es : EmbeddingStore)
    (base : List (NodeID × Bool)) (hnodup : (base.map (fun v => v.1)).Nodup)
    (seed idx : ℕ) (hfair : fair_stream (prng (seed + idx))) :
    ∃ f, fit_one_tree prng cfg es base seed idx f ≠
      Except.error Err.noFuel := by
  obtain ⟨f, hfg⟩ := fit_group_terminates_aux cfg hm es (prng (seed + idx))
    hfair base.length base (le_refl _) hnodup [] 1 0
  refine ⟨f, ?_⟩
  rw [fit_one_tree]
  match hr : fit_group_ f cfg [] 1 es base ⟨prng (seed + idx), 0⟩ with
  | Except.error e =>
    rw [hr] at hfg
    show (Except.error e : Res TreeTable) ≠ Except.error Err.noFuel
    intro hcon
    cases hcon
    exact hfg rfl
  | Except.ok v => simp

theorem exists_uniform_tree_fuel (prng : ℕ → ℕ → ℕ) (cfg : AnnBuildConfig)
    (hm : 2 ≤ cfg.max_nodes_per_leaf) (es : EmbeddingStore)
    (base : List (NodeID × Bool)) (hnodup : (base.map (fun v => v.1)).Nodup)
    (seed : ℕ) (hfair : ∀ s, fair_stream (prng s)) (l : List ℕ) :
    ∃ F, ∀ i ∈ l, fit_one_tree prng cfg es base seed i F ≠
      Except.error Err.noFuel := by
  induction l with
  | nil => exact ⟨0, by simp⟩
  | cons i t iht =>
    obtain ⟨f1, h1⟩ := fit_one_tree_terminates prng cfg hm es base hnodup
      seed i (hfair (seed + i))
    obtain ⟨F, hF⟩ := iht
    refine ⟨max f1 F, ?_⟩
    intro j hj
    rcases List.mem_cons.mp hj with rfl | hj'
    · rw [fit_one_tree_mono prng cfg es base seed j f1 (max f1 F)
        (Nat.le_max_left f1 F) h1]
      exact h1
    · rw [fit_one_tree_mono prng cfg es base seed j F (max f1 F)
        (Nat.le_max_right f1 F) (hF j hj')]
      exact hF j hj'

/-- **C2.**  The claim as stated is refuted by `C2_counterexample`: the
two-distinct-points selection loop inside the split chooser spins forever
when the slice holds a single repeated id (for instance when
`max_nodes_per_leaf = 1` sends a one-element slice into the chooser), so
the builder does not terminate for *every* configuration.  The amended
claim: `fit` terminates whenever `max_nodes_per_leaf ≥ 2` (so every slice
reaching a split chooser holds at least two elements), the working node
ids are pairwise distinct, and every seeded RNG stream is fair (from any
position it eventually hits every residue class of every modulus, as the
`XorShiftRng` streams do).  Under those hypotheses some fuel bound makes
`Ann.fit` return without exhausting fuel. -/
theorem C2_fit_terminates (prng : ℕ → ℕ → ℕ) (es : EmbeddingStore)
    (n_trees mnpl : ℕ) (th ns : Option ℕ) (nids : Option (List NodeID))
    (seed : ℕ) (hfair : ∀ s, fair_stream (prng s)) (hm : 2 ≤ mnpl)
    (hnodup : ((base_indices es nids).map (fun v => v.1)).Nodup) :
    fit_terminates prng es n_trees mnpl th ns nids seed := by
  have hmc : 2 ≤ (fit_config mnpl th ns).max_nodes_per_leaf := hm
  obtain ⟨F, hF⟩ := exists_uniform_tree_fuel prng (fit_config mnpl th ns) hmc
    es (base_indices es nids) hnodup seed hfair (List.range n_trees)
  refine ⟨F, ?_⟩
  rw [Ann.fit]
  have hmr := mapRes_ne_noFuel
    (fun idx => fit_one_tree prng (fit_config mnpl th ns) es
      (base_indices es nids) seed idx F)
    (List.range n_trees) hF
  match hmv : mapRes (fun idx => fit_one_tree prng (fit_config mnpl th ns) es
      (base_indices es nids) seed idx F) (List.range n_trees) with
  | Except.error e =>
    rw [hmv] at hmr
    show (Except.error e : Res Ann) ≠ Except.error Err.noFuel
    intro hcon
    cases hcon
    exact hmr rfl
  | Except.ok trees => simp

theorem fair_id : fair_stream (fun p => p) := by
  intro pos m j hj
  have hmpos : 0 < m := by omega
  have h1 : m * (pos / m) + pos % m = pos := Nat.div_add_mod pos m
  have h2 : pos % m < m := Nat.mod_lt _ hmpos
  have h3 : m * (pos / m + 1) = m * (pos / m) + m := by ring
  refine ⟨m * (pos / m + 1) + j, by omega, ?_⟩
  show (m * (pos / m + 1) + j) % m = j
  rw [Nat.mul_add_mod]
  exact Nat.mod_eq_of_lt hj

/-- Witness for `C2_fit_terminates`: concrete instance on two one-dimensional
points and the identity stream. -/
theorem C2_witness :
    fit_terminates prngId esA 1 2 none none (some [0, 1]) 0 :=
  C2_fit_terminates prngId esA 1 2 none none (some [0, 1]) 0
    (fun _ => fair_id) (by omega) (by decide)
